import Mathlib

/-!
# Verification of the farrow-type-cli resolution-and-execution core

A shallow embedding, in Lean 4, of the parts of the `farrow-type-cli`
repository that its specification describes: the argv tokenizer
(`src/parse.ts`), the command-tree resolver (`src/match.ts`), the
positional/option preparation and constraint checker (`src/validate.ts`),
and the hook-and-execution orchestrator (`src/run.ts`).  Pure functions
of the source become Lean functions; JavaScript objects become ordered
association lists (matching JS string-key insertion order); exceptions
become `Except`; the asynchronous hook pipeline, which the source awaits
strictly sequentially, becomes a pure trace-producing function.

Each theorem below the definitions settles one claim of the
specification against these embeddings.
-/

namespace FarrowCli

/-! ## Command tree (src/types.ts, src/match.ts)

Only the fields the resolver inspects are modelled: `path` and `aliases`
(an absent `aliases` array behaves as the empty list, since
`aliases?.includes` is then undefined-falsy in the source). -/

/-- The identity of a leaf command: its path segment and its alias list. -/
structure CmdInfo where
  path : String
  aliases : List String
deriving DecidableEq, Repr

/-- A node of the command tree (`Command | CommandGroup` in src/types.ts).
A group owns its ordered subcommands and an optional default command,
which is always a leaf. -/
inductive CommandOrGroup where
  | command (c : CmdInfo)
  | group (path : String) (aliases : List String)
      (subCommands : List CommandOrGroup) (defaultCommand : Option CmdInfo)
deriving Repr

def nodePath : CommandOrGroup → String
  | .command c => c.path
  | .group p _ _ _ => p

def nodeAliases : CommandOrGroup → List String
  | .command c => c.aliases
  | .group _ a _ _ => a

def defaultCommandOf : CommandOrGroup → Option CmdInfo
  | .command _ => none
  | .group _ _ _ dc => dc

/-- The predicate of the `currentCommands.find(...)` calls in src/match.ts
(lines 114-118): a node matches a segment when its path equals the segment
or its alias list contains it. -/
def matchesSegment (segment : String) (c : CommandOrGroup) : Bool :=
  nodePath c == segment || (nodeAliases c).contains segment

/-- Whether a default command's path or alias matches a segment
(src/match.ts line 123). -/
def cmdMatches (dc : CmdInfo) (segment : String) : Bool :=
  dc.path == segment || dc.aliases.contains segment

/-- Result of `findCommandAtPath` (src/match.ts lines 94-97). -/
inductive FindResult where
  | command (c : CmdInfo)
  | group (g : CommandOrGroup)
  | notFound
deriving Repr

/-- The level-by-level loop of `findCommandAtPath` (src/match.ts lines
105-152).  `parentDefault` carries `parentGroup?.defaultCommand`, the only
part of the parent group the loop reads. -/
def findLoop (currentCommands : List CommandOrGroup) (parentDefault : Option CmdInfo) :
    List String → FindResult
  | [] => .notFound
  | segment :: rest =>
    match currentCommands.find? (matchesSegment segment) with
    | none =>
      match parentDefault with
      | some dc =>
        if cmdMatches dc segment then
          if rest.isEmpty then .command dc else .notFound
        else .notFound
      | none => .notFound
    | some (.command c) => if rest.isEmpty then .command c else .notFound
    | some (.group p a subs dc) =>
      if rest.isEmpty then .group (.group p a subs dc)
      else findLoop subs dc rest

/-- `findCommandAtPath` (src/match.ts line 100): the empty-path guard is
subsumed by `findLoop`'s base case. -/
def findCommandAtPath (commands : List CommandOrGroup) (path : List String) : FindResult :=
  findLoop commands none path

/-- `MatchResult` (src/types.ts): tagged union returned by `matchCommand`. -/
inductive MatchResult where
  | command (c : CmdInfo) (pathArgs : List String) (remainingArgs : List String)
  | group (g : CommandOrGroup) (pathArgs : List String) (remainingArgs : List String)
  | notFound (path : List String)
deriving Repr

/-- The descending depth loop of `matchCommand` (src/match.ts lines 64-86);
the fuel argument is the current candidate depth. -/
def matchLoop (commands : List CommandOrGroup) (args : List String) : Nat → MatchResult
  | 0 => .notFound args
  | d + 1 =>
    let path := args.take (d + 1)
    let remainingArgs := args.drop (d + 1)
    match findCommandAtPath commands path with
    | .command c => .command c path remainingArgs
    | .group g => .group g path remainingArgs
    | .notFound => matchLoop commands args d

/-- `matchCommand` (src/match.ts lines 58-89): longest-match-first over
candidate depths `min(args.length, 10)` down to `1`. -/
def matchCommand (commands : List CommandOrGroup) (args : List String) : MatchResult :=
  if args.isEmpty then .notFound []
  else matchLoop commands args (min args.length 10)

/-! ## Dispatch on the match result inside `run` (src/run.ts lines 154-182) -/

/-- What `run` does with the match result: report an unknown command
(exit 1), print group help (exit 0), or go on to execute a command —
the group's default command or the matched command itself. -/
inductive RunStep where
  | unknownCommand (path : List String)
  | groupHelp (g : CommandOrGroup)
  | execDefault (dc : CmdInfo) (pathArgs : List String)
  | execCommand (c : CmdInfo) (pathArgs : List String)
deriving Repr

def runDispatch (commands : List CommandOrGroup) (positionals : List String) : RunStep :=
  match matchCommand commands positionals with
  | .notFound p => .unknownCommand p
  | .group g pathArgs _ =>
    match defaultCommandOf g with
    | some dc => .execDefault dc pathArgs
    | none => .groupHelp g
  | .command c pathArgs _ => .execCommand c pathArgs

/-- The exit code when the dispatch step itself terminates the process
(`printErrorAndExit` exits 1, the group-help branch exits 0); the two
exec steps hand over to `executeCommand` instead. -/
def runStepExit : RunStep → Option Nat
  | .unknownCommand _ => some 1
  | .groupHelp _ => some 0
  | .execDefault _ _ => none
  | .execCommand _ _ => none

/-! ## Tokenizer (src/parse.ts)

Tokens are character lists (`Str`), making every JavaScript string
operation (`startsWith`, `indexOf`, `slice`) a transparent list
operation.  A repeated option key accumulates: scalar first, then a
growing array (`setOption`, src/parse.ts lines 167-185). -/

abbrev Str := List Char

/-- A single option occurrence's value: a string or a boolean flag. -/
inductive Scalar where
  | str (s : Str)
  | bool (b : Bool)
deriving DecidableEq, Repr

/-- A stored option value: one scalar, an accumulation array, or a stored
JavaScript `undefined` (reachable only through `prepareOptionsInput`'s
take-last on an empty array, never from the tokenizer). -/
inductive OptVal where
  | undef
  | one (v : Scalar)
  | many (vs : List Scalar)
deriving DecidableEq, Repr

instance : Inhabited Scalar := ⟨.bool false⟩

instance : Inhabited OptVal := ⟨.undef⟩

/-- The option store: a JavaScript object with string keys in insertion
order. -/
abbrev OptMap := List (Str × OptVal)

/-- `setOption` (src/parse.ts lines 167-185): first occurrence is scalar,
the second promotes to a two-element array, later ones append.  A stored
`undefined` behaves like an absent key, as in JavaScript. -/
def setOption (opts : OptMap) (key : Str) (value : Scalar) : OptMap :=
  match opts with
  | [] => [(key, .one value)]
  | (k, v) :: rest =>
    if k = key then
      match v with
      | .undef => (k, .one value) :: rest
      | .one existing => (k, .many [existing, value]) :: rest
      | .many vs => (k, .many (vs ++ [value])) :: rest
    else (k, v) :: setOption rest key value

/-- Split a character list at the first occurrence of `c`:
`some (before, after)` with `cs = before ++ c :: after`, else `none`.
Stands in for the `indexOf`/`slice` pairs of the source. -/
def splitFirst (c : Char) : Str → Option (Str × Str)
  | [] => none
  | a :: rest =>
    if a = c then some ([], rest)
    else
      match splitFirst c rest with
      | some (before, after) => some (a :: before, after)
      | none => none

/-- The `optPart` of `expandLongOption` (src/parse.ts lines 197-201): the
characters before the first `=` when that `=` sits at index `> 2`,
otherwise the whole input. -/
def optPartOf (input : Str) : Str :=
  match splitFirst '=' input with
  | some (before, _) => if 2 < before.length then before else input
  | none => input

/-- The `valPart` of `expandLongOption` (src/parse.ts lines 197-201):
`=` plus everything after it when the first `=` sits at index `> 2`,
otherwise empty. -/
def valPartOf (input : Str) : Str :=
  match splitFirst '=' input with
  | some (before, after) => if 2 < before.length then '=' :: after else []
  | none => []

/-- The abbreviation being expanded: `optPart.slice(2)`
(src/parse.ts line 203, named `prefix` there). -/
def longNamePart (input : Str) : Str :=
  (optPartOf input).drop 2

/-- Join with a separator, as JavaScript `Array.join`. -/
def joinSep (sep : Str) : List Str → Str
  | [] => []
  | [x] => x
  | x :: xs => x ++ sep ++ joinSep sep xs

/-- The "ambiguous option" error text (src/parse.ts lines 222-224). -/
def ambiguousMsg (optPart : Str) (ms : List Str) : Str :=
  "ambiguous option: '".toList ++ optPart ++ "' could be ".toList ++
    joinSep (", ".toList) (ms.map (fun m => '\'' :: '-' :: '-' :: m ++ ['\'']))

/-- GNU long-option abbreviation expansion (src/parse.ts lines 192-229):
an exact known name wins outright, a unique prefix match expands, zero
matches pass through unchanged, two or more matches raise the ambiguity
error naming every candidate. -/
def expandLongOption (input : Str) (knownOptions : List Str) : Except Str Str :=
  if input.take 2 ≠ ['-', '-'] ∨ knownOptions = [] then .ok input
  else
    let pfx := longNamePart input
    if pfx = [] then .ok input
    else if knownOptions.contains pfx then .ok ('-' :: '-' :: pfx ++ valPartOf input)
    else
      match knownOptions.filter (fun opt => pfx.isPrefixOf opt) with
      | [m] => .ok ('-' :: '-' :: m ++ valPartOf input)
      | [] => .ok input
      | ms => .error (ambiguousMsg (optPartOf input) ms)

/-- Parse hints (`ParseOptions` in src/types.ts): the known long option
names, whether a short option character is configured to take a value
(`shortOptions[c]?.takesValue ?? false`), and which long options are
declared boolean. -/
structure ParseOptions where
  knownOptions : List Str
  shortTakesValue : Char → Bool
  booleanOptions : List Str

/-- The left-to-right scan over combined short-option characters
(src/parse.ts lines 114-148): returns the `(character, value)` settings in
order and whether the next argv token was consumed.  The first value-taking
character eats the rest of the token (plus any `=` suffix), else the `=`
suffix, else a consumable next token; an `=` suffix on an all-flag run
binds to the last character. -/
def shortCombined (takes : Char → Bool) (next : Option Str) (eqValue : Option Str) :
    Str → List (Char × Scalar) × Bool
  | [] => ([], false)
  | c :: restChars =>
    if takes c then
      if restChars ≠ [] then
        ([(c, .str (restChars ++ match eqValue with | some v => '=' :: v | none => []))], false)
      else
        match eqValue with
        | some v => ([(c, .str v)], false)
        | none =>
          match next with
          | some n =>
            if n ≠ [] ∧ n.take 1 ≠ ['-'] then ([(c, .str n)], true)
            else ([(c, .bool true)], false)
          | none => ([(c, .bool true)], false)
    else
      if restChars = [] then
        match eqValue with
        | some v => ([(c, .str v)], false)
        | none => ([(c, .bool true)], false)
      else
        let step := shortCombined takes next eqValue restChars
        ((c, .bool true) :: step.1, step.2)

/-- What one non-`--`, non-stopped iteration of the `parseArgv` loop does
to the state: push the token as a positional and/or issue `setOption`
calls, and possibly consume the next token (the `i++` of the source). -/
structure StepRes where
  isPositional : Bool
  sets : List (Str × Scalar)
  consumed : Bool
deriving DecidableEq, Repr

/-- One iteration of the `parseArgv` loop for a token that is not `--` and
with option parsing not stopped (src/parse.ts lines 36-154): the bare `-`
positional, the long-option branch (with abbreviation expansion), the
single-character `-v=value` form, the single short option, the combined
short options, or a plain positional. -/
def parseStep (po : ParseOptions) (arg : Str) (next : Option Str) : Except Str StepRes :=
  if arg = ['-'] then .ok ⟨true, [], false⟩
  else if arg.take 2 = ['-', '-'] ∧ 2 < arg.length then
    match expandLongOption arg po.knownOptions with
    | .error e => .error e
    | .ok expandedArg =>
      let noEq : Str → StepRes := fun key =>
        let isBoolean := po.booleanOptions.contains key
        match next with
        | some n =>
          if ¬ isBoolean ∧ n ≠ [] ∧ n.take 1 ≠ ['-'] then ⟨false, [(key, .str n)], true⟩
          else ⟨false, [(key, .bool true)], false⟩
        | none => ⟨false, [(key, .bool true)], false⟩
      match splitFirst '=' (expandedArg.drop 2) with
      | some (before, after) =>
        if before ≠ [] then .ok ⟨false, [(before, .str after)], false⟩
        else .ok (noEq (expandedArg.drop 2))
      | none => .ok (noEq (expandedArg.drop 2))
  else if arg.take 1 = ['-'] ∧ 1 < arg.length then
    -- `-v=value` single-character equals form (lines 72-84): the key part
    -- before the first `=` must be exactly one dash plus one character
    let single :=
      match splitFirst '=' arg with
      | some (keyPart, valuePart) =>
        if 2 ≤ keyPart.length ∧ keyPart.take 2 ≠ ['-', '-'] ∧ keyPart.length = 2 then
          some (keyPart.drop 1, valuePart)
        else none
      | none => none
    match single with
    | some (key, value) => .ok ⟨false, [(key, .str value)], false⟩
    | none =>
      -- truncate at `=` past the dash (lines 86-89)
      let split :=
        match splitFirst '=' (arg.drop 1) with
        | some (before, after) => (before, some after)
        | none => (arg.drop 1, (none : Option Str))
      match split.1 with
      | [c] =>
        -- single short option (lines 92-110)
        match split.2 with
        | some v => .ok ⟨false, [([c], .str v)], false⟩
        | none =>
          match next with
          | some n =>
            if po.shortTakesValue c ∧ n ≠ [] ∧ n.take 1 ≠ ['-'] then
              .ok ⟨false, [([c], .str n)], true⟩
            else .ok ⟨false, [([c], .bool true)], false⟩
          | none => .ok ⟨false, [([c], .bool true)], false⟩
      | _ =>
        -- combined short options (lines 111-148)
        let step := shortCombined po.shortTakesValue next split.2 split.1
        .ok ⟨false, step.1.map (fun p => ([p.1], p.2)), step.2⟩
  else .ok ⟨true, [], false⟩

/-- The main loop of `parseArgv` (src/parse.ts lines 21-155): `--` stops
option parsing, stopped tokens are positionals verbatim, otherwise one
`parseStep` fires and the loop advances by one token — or by two when the
step consumed the next token as an option value. -/
def parseLoop (po : ParseOptions) : List Str → Bool → List Str → OptMap →
    Except Str (List Str × OptMap)
  | [], _, pos, opts => .ok (pos, opts)
  | arg :: rest, stopParsing, pos, opts =>
    if arg = ['-', '-'] then parseLoop po rest true pos opts
    else if stopParsing then parseLoop po rest stopParsing (pos ++ [arg]) opts
    else
      match parseStep po arg rest.head? with
      | .error e => .error e
      | .ok st =>
        let posNext := if st.isPositional then pos ++ [arg] else pos
        let optsNext := st.sets.foldl (fun m kv => setOption m kv.1 kv.2) opts
        if st.consumed then
          match rest with
          | [] => .ok (posNext, optsNext)
          | _ :: rest2 => parseLoop po rest2 stopParsing posNext optsNext
        else parseLoop po rest stopParsing posNext optsNext

/-- `ParsedArgv` (src/types.ts): positionals, the option map, the raw argv. -/
structure ParsedArgv where
  positionals : List Str
  options : OptMap
  raw : List Str
deriving DecidableEq, Repr

/-- `parseArgv` (src/parse.ts lines 16-162). -/
def parseArgv (argv : List Str) (po : ParseOptions) : Except Str ParsedArgv :=
  match parseLoop po argv false [] [] with
  | .error e => .error e
  | .ok (pos, opts) => .ok ⟨pos, opts, argv⟩

/-- A token the tokenizer rejects: a processed long-option token whose
dash-stripped name part is neither an exact known option nor the prefix of
at most one known option (src/parse.ts lines 210-225). -/
def ambiguousLongToken (known : List Str) (t : Str) : Bool :=
  t.take 2 == ['-', '-'] && decide (2 < t.length) &&
    !(known.contains (longNamePart t)) &&
    decide (2 <= (known.filter (fun opt => (longNamePart t).isPrefixOf opt)).length)

/-! ## Input preparation & constraints (src/validate.ts)

The external farrow-schema collaborator is abstracted to the three
introspection capabilities the source consults per field
(`isOptionalSchema` / `isBooleanSchema` / `isListSchema` in
src/schema-utils.ts); rest-argument validation is a caller-supplied
function standing for `validateInput` against the rest schema.  Keys and
values stay character lists, shared with the tokenizer section. -/

/-- What `validate.ts` can ask the schema collaborator about one field. -/
structure FieldSchema where
  isOptional : Bool
  isBoolean : Bool
  isList : Bool
deriving DecidableEq, Repr

/-- The ordered `[key, fieldSchema]` entries of a schema
(`getSchemaEntries`), with any `CliField` wrapper already unwrapped to its
`__type`. -/
abbrev SchemaEntries := List (Str × FieldSchema)

/-- JavaScript object assignment `obj[key] = v`: updates in place when the
key exists (keeping its position), appends otherwise. -/
def objSet {α : Type} : List (Str × α) → Str → α → List (Str × α)
  | [], key, v => [(key, v)]
  | (k, w) :: rest, key, v =>
    if k = key then (k, v) :: rest else (k, w) :: objSet rest key v

/-- JavaScript `key in obj`. -/
def objHas {α : Type} (m : List (Str × α)) (key : Str) : Bool :=
  m.any (fun p => p.1 == key)

/-- A validation outcome of the external schema validator
(`ValidationResult` in src/types.ts). -/
inductive VRes (α : Type) where
  | ok (value : α)
  | fail (errors : List Str)
deriving DecidableEq, Repr

/-- Result of `prepareArgsInput`: the assigned args object, the rest
values, and any rest-validation errors (`undefined` errors are the empty
list). -/
structure PreparedArgs where
  args : List (Str × Str)
  rest : List Str
  errors : List Str
deriving DecidableEq, Repr

/-- The required fields of a schema, in declaration order
(src/validate.ts lines 112-128). -/
def requiredFieldsOf (entries : SchemaEntries) : List Str :=
  (entries.filter (fun e => !e.2.isOptional)).map Prod.fst

/-- The optional fields of a schema, in declaration order. -/
def optionalFieldsOf (entries : SchemaEntries) : List Str :=
  (entries.filter (fun e => e.2.isOptional)).map Prod.fst

/-- `prepareArgsInput` (src/validate.ts lines 103-163): positionals are
assigned to `requiredFields ++ optionalFields` by index; leftovers are
validated one by one against the rest schema when present (failures
collected, not short-circuited) or returned raw otherwise. -/
def prepareArgsInput (entries : SchemaEntries) (positionals : List Str)
    (restValidate : Option (Str → VRes Str)) : PreparedArgs :=
  let allFields := requiredFieldsOf entries ++ optionalFieldsOf entries
  let fixedArgCount := allFields.length
  let argsInput := (allFields.zip positionals).foldl (fun m fv => objSet m fv.1 fv.2) []
  let restInput := positionals.drop fixedArgCount
  match restValidate with
  | some validateRest =>
    if fixedArgCount < positionals.length then
      let step := restInput.foldl
        (fun acc v =>
          match validateRest v with
          | .ok value => (acc.1 ++ [value], acc.2)
          | .fail errs =>
            (acc.1, acc.2 ++
              [('"' :: v) ++ "\" is not a valid rest argument: ".toList ++
                joinSep ", ".toList errs]))
        (([], []) : List Str × List Str)
      ⟨argsInput, step.1, step.2⟩
    else ⟨argsInput, [], []⟩
  | none =>
    if fixedArgCount < positionals.length then ⟨argsInput, restInput, []⟩
    else ⟨argsInput, [], []⟩

/-- `prepareOptionsInput` (src/validate.ts lines 170-218): inject `false`
(or `[]` for a boolean list) for every absent non-optional boolean field,
then collapse accumulated arrays — kept for list fields, last value wins
otherwise — and wrap a single value of a list field into an array. -/
def prepareOptionsInput (entries : SchemaEntries) (options : OptMap) : OptMap :=
  let listFields := (entries.filter (fun e => e.2.isList)).map Prod.fst
  let inputAfterDefaults := entries.foldl
    (fun input e =>
      if ¬ objHas input e.1 = true ∧ e.2.isBoolean = true ∧ ¬ e.2.isOptional = true then
        input ++ [(e.1, if e.2.isList then OptVal.many [] else OptVal.one (.bool false))]
      else input)
    options
  inputAfterDefaults.map
    (fun kv =>
      match kv.2 with
      | .many vs =>
        if listFields.contains kv.1 then kv
        else (kv.1, match vs.getLast? with
          | some v => OptVal.one v
          | none => OptVal.undef)
      | .one v => if listFields.contains kv.1 then (kv.1, OptVal.many [v]) else kv
      | .undef => kv)

/-- `ConstraintDef` (src/types.ts lines 153-168); a custom constraint's
predicate may throw, carried as `Except.error` with the thrown message. -/
inductive ConstraintDef where
  | exclusive (options : List Str) (description : Option Str)
  | dependsOn (option : Str) (requires : List Str) (description : Option Str)
  | requiredTogether (options : List Str) (description : Option Str)
  | custom (description : Str) (check : OptMap → Except Str Bool)

/-- JavaScript `a || b` for an optional string: an absent or empty
description falls back to the built-in message. -/
def jsOrStr (r : Option Str) (d : Str) : Str :=
  match r with
  | some s => if s = [] then d else s
  | none => d

/-- `isOptionPresent` (src/validate.ts lines 7-14): with the captured
user-supplied key set, membership there; otherwise presence of a
non-`undefined` value in the validated options. -/
def isOptionPresent (key : Str) (options : OptMap)
    (userProvidedKeys : Option (List Str)) : Bool :=
  match userProvidedKeys with
  | some keys => keys.contains key
  | none =>
    match options.lookup key with
    | some v => v != OptVal.undef
    | none => false

/-- The `exclusive` validator (src/validate.ts lines 18-33). -/
def exclusiveError (options : List Str) (description : Option Str)
    (opts : OptMap) (userKeys : Option (List Str)) : Option Str :=
  let present := options.filter (fun o => isOptionPresent o opts userKeys)
  if 1 < present.length then
    some (jsOrStr description
      ("Options ".toList ++ joinSep ", ".toList options ++
        " are mutually exclusive".toList))
  else none

/-- The `dependsOn` validator (src/validate.ts lines 35-53). -/
def dependsOnError (option : Str) (requires : List Str) (description : Option Str)
    (opts : OptMap) (userKeys : Option (List Str)) : Option Str :=
  if ¬ isOptionPresent option opts userKeys = true then none
  else
    let missing := requires.filter (fun r => !(isOptionPresent r opts userKeys))
    if missing.length > 0 then
      some (jsOrStr description
        ("Option ".toList ++ option ++ " requires ".toList ++
          joinSep ", ".toList missing))
    else none

/-- The `requiredTogether` validator (src/validate.ts lines 55-70). -/
def requiredTogetherError (options : List Str) (description : Option Str)
    (opts : OptMap) (userKeys : Option (List Str)) : Option Str :=
  let present := options.filter (fun o => isOptionPresent o opts userKeys)
  if 0 < present.length ∧ present.length < options.length then
    some (jsOrStr description
      ("Options ".toList ++ joinSep ", ".toList options ++
        " must be specified together".toList))
  else none

/-- The per-constraint error collection of `checkConstraints`
(src/validate.ts lines 236-269): every constraint is evaluated, a thrown
custom predicate contributes `description: message`. -/
def constraintErrors (opts : OptMap) (userKeys : Option (List Str)) :
    List ConstraintDef → List Str
  | [] => []
  | c :: rest =>
    (match c with
      | .custom description check =>
        match check opts with
        | .ok b => if b then [] else [description]
        | .error m => [description ++ ": ".toList ++ m]
      | .exclusive options description =>
        (exclusiveError options description opts userKeys).toList
      | .dependsOn option requires description =>
        (dependsOnError option requires description opts userKeys).toList
      | .requiredTogether options description =>
        (requiredTogetherError options description opts userKeys).toList) ++
      constraintErrors opts userKeys rest

/-- Result of `checkConstraints`. -/
structure ConstraintCheck where
  valid : Bool
  errors : List Str
deriving DecidableEq, Repr

/-- `checkConstraints` (src/validate.ts lines 224-272). -/
def checkConstraints (opts : OptMap) (constraints : List ConstraintDef)
    (userProvidedKeys : Option (List Str)) : ConstraintCheck :=
  let errors := constraintErrors opts userProvidedKeys constraints
  ⟨errors.isEmpty, errors⟩

/-- The wiring in `executeCommand` (src/run.ts lines 363-391): the
user-supplied key set is captured from the resolved option input *before*
`prepareOptionsInput` injects boolean defaults, and `checkConstraints`
receives that pre-injection key set next to the prepared values (the
external coercive `validateInput` between the two is abstracted as the
identity on the prepared map). -/
def commandConstraintCheck (entries : SchemaEntries)
    (finalCommandOptionsInput : OptMap)
    (constraints : List ConstraintDef) : ConstraintCheck :=
  let userProvidedOptionKeys := finalCommandOptionsInput.map Prod.fst
  let optionsInput := prepareOptionsInput entries finalCommandOptionsInput
  checkConstraints optionsInput constraints (some userProvidedOptionKeys)

/-- The command tree used by concrete resolver witnesses: a `server` group
with subcommands `start`/`stop`, and a `service` group with subcommand
`list` and default command `status` (alias `st`). -/
def exTree : List CommandOrGroup :=
  [.group "server" ["sv"]
     [.command ⟨"start", ["up"]⟩, .command ⟨"stop", []⟩] none,
   .group "service" ["svc"] [.command ⟨"list", ["ls"]⟩] (some ⟨"status", ["st"]⟩)]

/-- Sibling tree for the C5 counterexample: the first-declared sibling
matches `"y"` only through its alias, the second through its exact path. -/
def exAliasFirst : List CommandOrGroup :=
  [.command ⟨"x", ["y"]⟩, .command ⟨"y", []⟩]

/-- Witness schema: a single non-optional boolean field `verbose`. -/
def exEntriesVerbose : SchemaEntries := [("verbose".toList, ⟨false, true, false⟩)]

/-- Witness input where the user supplied only `other`. -/
def exInputOther : OptMap := [("other".toList, .one (.str ['1']))]

/-- Witness input where the user supplied both `verbose` and `other`. -/
def exInputBoth : OptMap :=
  [("verbose".toList, .one (.bool true)), ("other".toList, .one (.str ['1']))]

/-! ## Hook & execution orchestrator (src/run.ts lines 443-696)

Hooks are arbitrary user code; for the orchestrator each hook call is
characterized by its observable outcome: a pre-action hook continues,
aborts with an optional reason, or throws; a post-action hook returns or
throws; the action returns or throws.  `executeWithHooks` becomes a pure
function from those outcomes to the ordered trace of events the source
performs — hook calls with their arguments, `console.error` writes, and
the final `process.exit`.  The source awaits every hook strictly
sequentially, so trace order is execution order. -/

/-- Observable outcome of one pre-action hook call (`HookResult` /
`GroupHookResult` in src/types.ts); a thrown hook is caught by the
orchestrator and treated as an abort carrying the error message
(src/run.ts lines 550-563 and 642-654). -/
inductive PreOutcome where
  | cont
  | abort (reason : Option String)
  | throws (msg : String)
deriving DecidableEq, Repr

/-- Observable outcome of one post-action hook call. -/
inductive PostOutcome where
  | ok
  | throws (msg : String)
deriving DecidableEq, Repr

/-- Observable outcome of the user action. -/
inductive ActionOutcome where
  | ok
  | throws (msg : String)
deriving DecidableEq, Repr

/-- `ActionResult` (src/types.ts line 134); `aborted := false` and
`error := none` model the absent optional keys. -/
structure ActionResult where
  success : Bool
  error : Option String
  aborted : Bool
deriving DecidableEq, Repr

/-- One group on the matched path: its path segment (used in the default
abort reason) and its pre/post hook lists.  A single configured hook is
the one-element list — the `Array.isArray` normalization of the source —
and an absent hook field is the empty list. -/
structure GroupCfg where
  path : String
  pre : List PreOutcome
  post : List PostOutcome
deriving DecidableEq, Repr

/-- Everything `executeWithHooks` reads: the CLI name and command path
(for the error hint of `printErrorAndExit`), the CLI-, group- and
command-level hook lists, and the action's outcome. -/
structure OrchCfg where
  cliName : String
  fullPath : List String
  cliPre : List PreOutcome
  cliPost : List PostOutcome
  groupsInPath : List GroupCfg
  cmdPre : List PreOutcome
  cmdPost : List PostOutcome
  action : ActionOutcome
deriving DecidableEq, Repr

/-- The observable events of one `executeWithHooks` run, in order.  Call
events carry the position of the hook (group index root→leaf, index
within its list) and, for post hooks, the `ActionResult` value passed to
that call. -/
inductive Event where
  | cliPreCall (i : Nat)
  | groupPreCall (g i : Nat)
  | cmdPreCall (i : Nat)
  | actionCall
  | cmdPostCall (i : Nat) (res : ActionResult)
  | groupPostCall (g i : Nat) (res : ActionResult)
  | cliPostCall (i : Nat) (res : ActionResult)
  | logErr (msg : String)
  | exit (code : Nat)
deriving DecidableEq, Repr

/-- JavaScript `reason || default` (src/run.ts lines 461, 472, 484): an
absent or empty reason falls back to the default. -/
def jsOr (r : Option String) (d : String) : String :=
  match r with
  | some s => if s = "" then d else s
  | none => d

/-- One pre-action hook list (`executeHooks` / `executeGroupHooks`,
src/run.ts lines 571-585 and 636-657): hooks run in order; the first
abort — or throw, caught as an abort carrying the message — stops the
list.  Returns the call events and the aborting reason, if any. -/
def runPreList (mk : Nat → Event) (hooks : List PreOutcome) (i : Nat) :
    List Event × Option (Option String) :=
  match hooks with
  | [] => ([], none)
  | .cont :: rest =>
    let step := runPreList mk rest (i + 1)
    (mk i :: step.1, step.2)
  | .abort r :: _ => ([mk i], some r)
  | .throws m :: _ => ([mk i], some (some m))

/-- The group pre-action phase (src/run.ts lines 466-477): groups run
root→leaf; the first aborting group stops the phase, its reason defaulted
per group path. -/
def runGroupsPre (groups : List GroupCfg) (g : Nat) : List Event × Option String :=
  match groups with
  | [] => ([], none)
  | grp :: rest =>
    let step := runPreList (Event.groupPreCall g) grp.pre 0
    match step.2 with
    | some r =>
      (step.1, some (jsOr r ("Aborted by group '" ++ grp.path ++ "' preAction hook")))
    | none =>
      let next := runGroupsPre rest (g + 1)
      (step.1 ++ next.1, next.2)

/-- One post-action hook list (`executePostActionHooks` /
`executeGroupPostActionHooks`, src/run.ts lines 592-623 and 667-696):
every hook runs with the same `ActionResult`; a throwing hook is caught
and logged to stderr. -/
def runPostList (evOf : Nat → ActionResult → Event) (hooks : List PostOutcome)
    (res : ActionResult) (i : Nat) : List Event :=
  match hooks with
  | [] => []
  | .ok :: rest => evOf i res :: runPostList evOf rest res (i + 1)
  | .throws m :: rest =>
    evOf i res :: .logErr ("[postAction hook error] " ++ m) ::
      runPostList evOf rest res (i + 1)

/-- The group post-action phase (src/run.ts lines 521-526): the groups of
the path in reverse (leaf→root), every group's list in full; events keep
the original root→leaf group index. -/
def runGroupsPost (groupsRev : List (Nat × GroupCfg)) (res : ActionResult) : List Event :=
  match groupsRev with
  | [] => []
  | (g, grp) :: rest =>
    runPostList (Event.groupPostCall g) grp.post res 0 ++ runGroupsPost rest res

/-- `printErrorAndExit` (src/run.ts lines 729-745) in the form reached
from `executeWithHooks`, where a command and full path are in hand: the
message, a blank line, the scoped `--help` hint, exit status 1. -/
def printErrorAndExit (cliName : String) (msg : String) (fullPath : List String) :
    List Event :=
  [.logErr msg, .logErr "",
    .logErr ("Run '" ++ cliName ++ " " ++ String.intercalate " " fullPath ++
      " --help' for usage."),
    .exit 1]

/-- `executeWithHooks` (src/run.ts lines 443-545) as an event trace: CLI
pre hooks, group pre hooks root→leaf, command pre hooks — each later pre
phase skipped after an abort — then the action unless aborted; then one
`ActionResult` computed once and handed unchanged to the command, group
(leaf→root) and CLI post phases, which always run in full; finally the
abort / action-error / success exit. -/
def executeWithHooks (cfg : OrchCfg) : List Event :=
  let cliStep := runPreList Event.cliPreCall cfg.cliPre 0
  let aborted1 : Option String :=
    cliStep.2.map (fun r => jsOr r "Aborted by preAction hook")
  let groupStep : List Event × Option String :=
    match aborted1 with
    | some r => ([], some r)
    | none => runGroupsPre cfg.groupsInPath 0
  let cmdStep : List Event × Option String :=
    match groupStep.2 with
    | some r => ([], some r)
    | none =>
      let s := runPreList Event.cmdPreCall cfg.cmdPre 0
      (s.1, s.2.map (fun r => jsOr r "Aborted by preAction hook"))
  let aborted := cmdStep.2
  let actionStep : List Event × Bool × Option String :=
    match aborted with
    | some _ => ([], false, none)
    | none =>
      match cfg.action with
      | .ok => ([Event.actionCall], true, none)
      | .throws m => ([Event.actionCall], false, some m)
  let actionSuccess := actionStep.2.1
  let actionError := actionStep.2.2
  let postActionResult : ActionResult :=
    match aborted with
    | some r => ⟨false, some r, true⟩
    | none => ⟨actionSuccess, actionError, false⟩
  let postCmd := runPostList Event.cmdPostCall cfg.cmdPost postActionResult 0
  let postGroups := runGroupsPost cfg.groupsInPath.enum.reverse postActionResult
  let postCli := runPostList Event.cliPostCall cfg.cliPost postActionResult 0
  let exitStep :=
    match aborted with
    | some r => printErrorAndExit cfg.cliName r cfg.fullPath
    | none =>
      if actionSuccess then [Event.exit 0]
      else
        printErrorAndExit cfg.cliName
          ("Error: " ++ jsOr actionError "Unknown error") cfg.fullPath
  cliStep.1 ++ groupStep.1 ++ cmdStep.1 ++ actionStep.1 ++
    postCmd ++ postGroups ++ postCli ++ exitStep

/-! ### Specification-side reconstruction (spec sec 4.5's state machine) -/

/-- How many hooks of a pre list are called: everything up to and
including the first non-continuing hook. -/
def calledCount : List PreOutcome → Nat
  | [] => 0
  | .cont :: rest => calledCount rest + 1
  | .abort _ :: _ => 1
  | .throws _ :: _ => 1

/-- The abort reason a pre list produces, before defaulting: the payload
of its first non-continuing hook. -/
def listAbort : List PreOutcome → Option (Option String)
  | [] => none
  | .cont :: rest => listAbort rest
  | .abort r :: _ => some r
  | .throws m :: _ => some (some m)

/-- The call events of one pre list. -/
def preCalls (mk : Nat → Event) (hooks : List PreOutcome) : List Event :=
  (List.range (calledCount hooks)).map mk

/-- The defaulted abort reason of the group pre phase: the first group
whose list aborts, root→leaf. -/
def groupsAbortSpec : List GroupCfg → Option String
  | [] => none
  | grp :: rest =>
    match listAbort grp.pre with
    | some r => some (jsOr r ("Aborted by group '" ++ grp.path ++ "' preAction hook"))
    | none => groupsAbortSpec rest

/-- The group pre-phase call events, root→leaf, cut at the first aborting
group. -/
def groupsPreTrace : List GroupCfg → Nat → List Event
  | [], _ => []
  | grp :: rest, g =>
    match listAbort grp.pre with
    | some _ => preCalls (Event.groupPreCall g) grp.pre
    | none => preCalls (Event.groupPreCall g) grp.pre ++ groupsPreTrace rest (g + 1)

/-- The defaulted abort reason of the whole pre phase: CLI level, then
groups root→leaf, then command level. -/
def specAbort (cfg : OrchCfg) : Option String :=
  match listAbort cfg.cliPre with
  | some r => some (jsOr r "Aborted by preAction hook")
  | none =>
    match groupsAbortSpec cfg.groupsInPath with
    | some r => some r
    | none => (listAbort cfg.cmdPre).map (fun r => jsOr r "Aborted by preAction hook")

/-- The single `ActionResult` every post hook receives:
`{success := false, error := reason, aborted := true}` after a pre-phase
abort, `{success := false, error := message}` after an action exception,
`{success := true}` after normal completion. -/
def specResult (cfg : OrchCfg) : ActionResult :=
  match specAbort cfg with
  | some r => ⟨false, some r, true⟩
  | none =>
    match cfg.action with
    | .ok => ⟨true, none, false⟩
    | .throws m => ⟨false, some m, false⟩

/-- The exit status: 1 after an abort or an action exception, 0 after
normal completion — a function of the pre and action outcomes only. -/
def specExit (cfg : OrchCfg) : Nat :=
  match specAbort cfg with
  | some _ => 1
  | none =>
    match cfg.action with
    | .ok => 0
    | .throws _ => 1

/-- The full trace the specification's state machine prescribes:
`CliPre → GroupPre (root→leaf) → CommandPre → Action → CommandPost →
GroupPost (leaf→root) → CliPost`, pre phases cut at the first abort, the
action run only when nothing aborted, the post phases complete with the
one shared `ActionResult`, then the exit. -/
def specTrace (cfg : OrchCfg) : List Event :=
  preCalls Event.cliPreCall cfg.cliPre ++
  (match listAbort cfg.cliPre with
   | some _ => []
   | none => groupsPreTrace cfg.groupsInPath 0) ++
  (match listAbort cfg.cliPre, groupsAbortSpec cfg.groupsInPath with
   | none, none => preCalls Event.cmdPreCall cfg.cmdPre
   | _, _ => []) ++
  (match specAbort cfg with
   | none => [Event.actionCall]
   | some _ => []) ++
  runPostList Event.cmdPostCall cfg.cmdPost (specResult cfg) 0 ++
  runGroupsPost cfg.groupsInPath.enum.reverse (specResult cfg) ++
  runPostList Event.cliPostCall cfg.cliPost (specResult cfg) 0 ++
  (match specAbort cfg with
   | some r => printErrorAndExit cfg.cliName r cfg.fullPath
   | none =>
     match cfg.action with
     | .ok => [Event.exit 0]
     | .throws m =>
       printErrorAndExit cfg.cliName ("Error: " ++ jsOr (some m) "Unknown error")
         cfg.fullPath)

/-- Recognizer for the `i`-th command post-hook call. -/
def isCmdPost (j : Nat) : Event → Bool
  | .cmdPostCall k _ => k == j
  | _ => false

/-- Recognizer for the `i`-th post-hook call of group `g`. -/
def isGroupPost (g j : Nat) : Event → Bool
  | .groupPostCall g2 k _ => g2 == g && k == j
  | _ => false

/-- Recognizer for the `i`-th CLI post-hook call. -/
def isCliPost (j : Nat) : Event → Bool
  | .cliPostCall k _ => k == j
  | _ => false

/-- Recognizer for the exit event. -/
def isExit : Event → Bool
  | .exit _ => true
  | _ => false

/-- Orchestrator configuration for the hook witnesses: a command-level
pre hook aborts after one continuing hook, and both a command and the CLI
post list contain a throwing hook. -/
def exCfg : OrchCfg :=
  { cliName := "app", fullPath := ["db", "migrate"],
    cliPre := [.cont], cliPost := [.throws "cli-post-boom"],
    groupsInPath := [⟨"db", [.cont], [.ok]⟩],
    cmdPre := [.cont, .abort (some "stop")],
    cmdPost := [.ok, .throws "cmd-post-boom"], action := .ok }

/-- Orchestrator configuration with no abort and a normally completing
action. -/
def exCfgOk : OrchCfg :=
  { cliName := "app", fullPath := ["build"],
    cliPre := [.cont], cliPost := [.ok],
    groupsInPath := [], cmdPre := [], cmdPost := [.ok], action := .ok }

/-- Orchestrator configuration with no abort and a throwing action. -/
def exCfgThrow : OrchCfg :=
  { exCfgOk with action := .throws "bad" }

/-! ## Resolver lemmas -/

/-- Full characterization of the descending depth loop: a command/group hit
comes from the largest depth `d ≤ n` whose path resolves, with
`pathArgs`/`remainingArgs` the split at `d`; `notFound` means no depth in
`[1, n]` resolves. -/
theorem matchLoop_char (commands : List CommandOrGroup) (args : List String) :
    ∀ n : Nat,
      (∀ c pa ra, matchLoop commands args n = .command c pa ra →
        ∃ d, 1 ≤ d ∧ d ≤ n ∧ pa = args.take d ∧ ra = args.drop d ∧
          findCommandAtPath commands (args.take d) = .command c ∧
          ∀ e, d < e → e ≤ n → findCommandAtPath commands (args.take e) = .notFound) ∧
      (∀ g pa ra, matchLoop commands args n = .group g pa ra →
        ∃ d, 1 ≤ d ∧ d ≤ n ∧ pa = args.take d ∧ ra = args.drop d ∧
          findCommandAtPath commands (args.take d) = .group g ∧
          ∀ e, d < e → e ≤ n → findCommandAtPath commands (args.take e) = .notFound) ∧
      (∀ p, matchLoop commands args n = .notFound p →
        p = args ∧ ∀ e, 1 ≤ e → e ≤ n →
          findCommandAtPath commands (args.take e) = .notFound) := by
  intro n
  induction n with
  | zero =>
    refine ⟨?_, ?_, ?_⟩
    · intro c pa ra h; simp [matchLoop] at h
    · intro g pa ra h; simp [matchLoop] at h
    · intro p h
      simp only [matchLoop, MatchResult.notFound.injEq] at h
      exact ⟨h.symm, fun e he1 he2 => absurd (le_trans he1 he2) (by omega)⟩
  | succ d ih =>
    cases hf : findCommandAtPath commands (args.take (d + 1)) with
    | command c0 =>
      refine ⟨?_, ?_, ?_⟩
      · intro c pa ra h
        simp only [matchLoop, hf] at h
        obtain ⟨hc, hpa, hra⟩ := MatchResult.command.inj h
        refine ⟨d + 1, by omega, le_refl _, hpa.symm, hra.symm, hc ▸ hf, ?_⟩
        intro e he1 he2; omega
      · intro g pa ra h
        simp only [matchLoop, hf] at h
        exact MatchResult.noConfusion h
      · intro p h
        simp only [matchLoop, hf] at h
        exact MatchResult.noConfusion h
    | group g0 =>
      refine ⟨?_, ?_, ?_⟩
      · intro c pa ra h
        simp only [matchLoop, hf] at h
        exact MatchResult.noConfusion h
      · intro g pa ra h
        simp only [matchLoop, hf] at h
        obtain ⟨hg, hpa, hra⟩ := MatchResult.group.inj h
        refine ⟨d + 1, by omega, le_refl _, hpa.symm, hra.symm, hg ▸ hf, ?_⟩
        intro e he1 he2; omega
      · intro p h
        simp only [matchLoop, hf] at h
        exact MatchResult.noConfusion h
    | notFound =>
      have hstep : matchLoop commands args (d + 1) = matchLoop commands args d := by
        simp only [matchLoop, hf]
      refine ⟨?_, ?_, ?_⟩
      · intro c pa ra h
        rw [hstep] at h
        obtain ⟨k, h1, h2, h3, h4, h5, h6⟩ := ih.1 c pa ra h
        refine ⟨k, h1, by omega, h3, h4, h5, ?_⟩
        intro e he1 he2
        rcases Nat.lt_or_ge e (d + 1) with hlt | hge
        · exact h6 e he1 (by omega)
        · have : e = d + 1 := by omega
          rw [this]; exact hf
      · intro g pa ra h
        rw [hstep] at h
        obtain ⟨k, h1, h2, h3, h4, h5, h6⟩ := ih.2.1 g pa ra h
        refine ⟨k, h1, by omega, h3, h4, h5, ?_⟩
        intro e he1 he2
        rcases Nat.lt_or_ge e (d + 1) with hlt | hge
        · exact h6 e he1 (by omega)
        · have : e = d + 1 := by omega
          rw [this]; exact hf
      · intro p h
        rw [hstep] at h
        obtain ⟨hp, hall⟩ := ih.2.2 p h
        refine ⟨hp, ?_⟩
        intro e he1 he2
        rcases Nat.lt_or_ge e (d + 1) with hlt | hge
        · exact hall e he1 (by omega)
        · have : e = d + 1 := by omega
          rw [this]; exact hf

/-- C4: `matchCommand` tries candidate path lengths from
`min(len(positionals), 10)` down to `1`; the first (i.e. longest) length
that resolves to a Command or Group wins, `pathArgs`/`remainingArgs` are
exactly the split of the positionals at that length (so their lengths add
up to the input length), a group's default command matches a segment only
as the last segment of the candidate path, and when no length resolves the
result is `NotFound` carrying the whole positional list. -/
theorem matchCommand_longest_match (commands : List CommandOrGroup) (args : List String) :
    (∀ c pa ra, matchCommand commands args = .command c pa ra →
      ∃ d, 1 ≤ d ∧ d ≤ min args.length 10 ∧ pa = args.take d ∧ ra = args.drop d ∧
        pa.length + ra.length = args.length ∧
        findCommandAtPath commands pa = .command c ∧
        ∀ e, d < e → e ≤ min args.length 10 →
          findCommandAtPath commands (args.take e) = .notFound) ∧
    (∀ g pa ra, matchCommand commands args = .group g pa ra →
      ∃ d, 1 ≤ d ∧ d ≤ min args.length 10 ∧ pa = args.take d ∧ ra = args.drop d ∧
        pa.length + ra.length = args.length ∧
        findCommandAtPath commands pa = .group g ∧
        ∀ e, d < e → e ≤ min args.length 10 →
          findCommandAtPath commands (args.take e) = .notFound) ∧
    (∀ p, matchCommand commands args = .notFound p →
      p = args ∧ ∀ e, 1 ≤ e → e ≤ min args.length 10 →
        findCommandAtPath commands (args.take e) = .notFound) ∧
    (∀ (cur : List CommandOrGroup) (dc : CmdInfo) (segment : String) (rest : List String),
      cur.find? (matchesSegment segment) = none →
      cmdMatches dc segment = true →
      findLoop cur (some dc) (segment :: rest) =
        if rest.isEmpty then .command dc else .notFound) := by
  by_cases hargs : args.isEmpty
  · have hempty : args = [] := List.isEmpty_iff.mp hargs
    subst hempty
    refine ⟨?_, ?_, ?_, ?_⟩
    · intro c pa ra h; simp [matchCommand] at h
    · intro g pa ra h; simp [matchCommand] at h
    · intro p h
      simp only [matchCommand, List.isEmpty_nil, if_true, MatchResult.notFound.injEq] at h
      exact ⟨h.symm, fun e he1 he2 => by simp at he2; omega⟩
    · intro cur dc segment rest hfind hdc
      simp [findLoop, hfind, hdc]
  · have hm : matchCommand commands args = matchLoop commands args (min args.length 10) := by
      simp [matchCommand, hargs]
    have hlen : ∀ d, (args.take d).length + (args.drop d).length = args.length := by
      intro d; rw [← List.length_append, List.take_append_drop]
    refine ⟨?_, ?_, ?_, ?_⟩
    · intro c pa ra h
      rw [hm] at h
      obtain ⟨d, h1, h2, h3, h4, h5, h6⟩ := (matchLoop_char commands args _).1 c pa ra h
      exact ⟨d, h1, h2, h3, h4, by rw [h3, h4]; exact hlen d, h3 ▸ h5, h6⟩
    · intro g pa ra h
      rw [hm] at h
      obtain ⟨d, h1, h2, h3, h4, h5, h6⟩ := (matchLoop_char commands args _).2.1 g pa ra h
      exact ⟨d, h1, h2, h3, h4, by rw [h3, h4]; exact hlen d, h3 ▸ h5, h6⟩
    · intro p h
      rw [hm] at h
      exact (matchLoop_char commands args _).2.2 p h
    · intro cur dc segment rest hfind hdc
      simp [findLoop, hfind, hdc]

/-- Concrete instantiation of `matchCommand_longest_match`: a two-segment
command hit splits the positionals, an unknown path is `NotFound` at every
depth, and a default command resolves as the final segment. -/
theorem matchCommand_longest_match_witness :
    (∃ d, 1 ≤ d ∧ d ≤ min (["server", "start", "extra"] : List String).length 10 ∧
      (["server", "start"] : List String) = (["server", "start", "extra"] : List String).take d ∧
      (["extra"] : List String) = (["server", "start", "extra"] : List String).drop d ∧
      (["server", "start"] : List String).length + (["extra"] : List String).length =
        (["server", "start", "extra"] : List String).length ∧
      findCommandAtPath exTree ["server", "start"] = .command ⟨"start", ["up"]⟩ ∧
      ∀ e, d < e → e ≤ min (["server", "start", "extra"] : List String).length 10 →
        findCommandAtPath exTree ((["server", "start", "extra"] : List String).take e) =
          .notFound) ∧
    findCommandAtPath exTree ["zzz"] = .notFound ∧
    findLoop [.command ⟨"list", ["ls"]⟩] (some ⟨"status", ["st"]⟩) ["st"] =
      .command ⟨"status", ["st"]⟩ ∧
    findLoop [.command ⟨"list", ["ls"]⟩] (some ⟨"status", ["st"]⟩) ["st", "more"] =
      .notFound := by
  refine ⟨?_, ?_, ?_, ?_⟩
  · exact (matchCommand_longest_match exTree ["server", "start", "extra"]).1
      ⟨"start", ["up"]⟩ ["server", "start"] ["extra"] rfl
  · exact ((matchCommand_longest_match exTree ["zzz"]).2.2.1 ["zzz"] rfl).2 1
      (by omega) (by decide)
  · exact (matchCommand_longest_match exTree []).2.2.2
      [.command ⟨"list", ["ls"]⟩] ⟨"status", ["st"]⟩ "st" [] rfl rfl
  · exact (matchCommand_longest_match exTree []).2.2.2
      [.command ⟨"list", ["ls"]⟩] ⟨"status", ["st"]⟩ "st" ["more"] rfl rfl

/-- `find?` skips a block of non-matching elements. -/
theorem find?_append_of_none {α : Type} (p : α → Bool) (l₁ l₂ : List α)
    (h : ∀ m ∈ l₁, p m = false) : (l₁ ++ l₂).find? p = l₂.find? p := by
  induction l₁ with
  | nil => rfl
  | cons a l ih =>
    have ha : p a = false := h a (List.mem_cons_self a l)
    simp only [List.cons_append, List.find?, ha]
    exact ih fun m hm => h m (List.mem_cons_of_mem a hm)

/-- C5 counterexample: with sibling `x` (alias `y`) declared before sibling
`y`, resolving the segment `"y"` selects `x` — the alias match — not the
sibling whose exact path equals the segment.  Declaration order, not
exact-path priority, decides between siblings. -/
theorem find_alias_beats_exact_path_counterexample :
    findCommandAtPath exAliasFirst ["y"] = .command ⟨"x", ["y"]⟩ ∧
    (CmdInfo.mk "x" ["y"] ≠ CmdInfo.mk "y" []) := by
  exact ⟨rfl, by decide⟩

/-- C5 (amended): at a single level of the tree the resolver selects the
first sibling in declaration order whose path or alias matches the current
segment (so an exact path beats an alias only when the exact-path sibling
is declared no later); and whenever any sibling matches the segment, the
parent group's default command is ignored entirely, so a sibling
subcommand whose path or alias collides with the default command's alias
wins over the default command. -/
theorem find_first_declared_sibling_wins
    (l₁ l₂ : List CommandOrGroup) (n : CommandOrGroup) (segment : String)
    (h₁ : ∀ m ∈ l₁, matchesSegment segment m = false)
    (h₂ : matchesSegment segment n = true) :
    ((l₁ ++ n :: l₂).find? (matchesSegment segment) = some n) ∧
    (∀ (parentDefault : Option CmdInfo) (rest : List String),
      findLoop (l₁ ++ n :: l₂) parentDefault (segment :: rest) =
        findLoop (l₁ ++ n :: l₂) none (segment :: rest)) := by
  have hfind : (l₁ ++ n :: l₂).find? (matchesSegment segment) = some n := by
    rw [find?_append_of_none _ _ _ h₁]
    simp [List.find?, h₂]
  refine ⟨hfind, ?_⟩
  intro parentDefault rest
  cases n with
  | command c => simp only [findLoop, hfind]
  | group p a subs dc => simp only [findLoop, hfind]

/-- Concrete instantiation of `find_first_declared_sibling_wins`: the
`overlap` subcommand is selected over the parent's default command whose
alias is also `overlap`, whatever the parent default is. -/
theorem find_first_declared_sibling_wins_witness :
    (([] ++ CommandOrGroup.command ⟨"overlap", []⟩ :: []).find?
        (matchesSegment "overlap") = some (.command ⟨"overlap", []⟩)) ∧
    findLoop [.command ⟨"overlap", []⟩] (some ⟨"default", ["overlap"]⟩) ["overlap"] =
      findLoop [.command ⟨"overlap", []⟩] none ["overlap"] := by
  have h := find_first_declared_sibling_wins [] []
    (.command ⟨"overlap", []⟩) "overlap" (by intro m hm; cases hm) (by decide)
  exact ⟨h.1, h.2 (some ⟨"default", ["overlap"]⟩) []⟩

/-- C10: when resolution matches a `CommandGroup` that declares no default
command, `run` takes the group-help branch and exits with status 0; the
bare group path is never the unknown-command (exit 1) failure. -/
theorem runDispatch_group_help
    (commands : List CommandOrGroup) (positionals : List String)
    (g : CommandOrGroup) (pa ra : List String)
    (hm : matchCommand commands positionals = .group g pa ra)
    (hd : defaultCommandOf g = none) :
    runDispatch commands positionals = .groupHelp g ∧
    runStepExit (.groupHelp g) = some 0 ∧
    runStepExit (.groupHelp g) ≠ some 1 := by
  refine ⟨?_, rfl, by simp [runStepExit]⟩
  simp [runDispatch, hm, hd]

/-- Concrete instantiation of `runDispatch_group_help`: invoking the bare
`server` group path of `exTree` (it declares no default command) shows the
help screen and exits 0. -/
theorem runDispatch_group_help_witness :
    runDispatch exTree ["server"] =
      .groupHelp (.group "server" ["sv"]
        [.command ⟨"start", ["up"]⟩, .command ⟨"stop", []⟩] none) ∧
    runStepExit (.groupHelp (.group "server" ["sv"]
        [.command ⟨"start", ["up"]⟩, .command ⟨"stop", []⟩] none)) = some 0 := by
  have h := runDispatch_group_help exTree ["server"]
    (.group "server" ["sv"] [.command ⟨"start", ["up"]⟩, .command ⟨"stop", []⟩] none)
    ["server"] [] rfl rfl
  exact ⟨h.1, h.2.1⟩

/-! ## Tokenizer lemmas -/

/-- For a long-form token (more than the two dashes), the extracted
abbreviation is nonempty. -/
theorem longNamePart_ne_nil (t : Str) (h3 : 2 < t.length) : longNamePart t ≠ [] := by
  have hlen : ∀ s : Str, 2 < s.length → s.drop 2 ≠ [] := by
    intro s hs h
    have h0 : (s.drop 2).length = 0 := by rw [h]; rfl
    rw [List.length_drop] at h0
    omega
  cases hsf : splitFirst '=' t with
  | none =>
    have he : longNamePart t = t.drop 2 := by simp [longNamePart, optPartOf, hsf]
    rw [he]; exact hlen t h3
  | some p =>
    obtain ⟨before, after⟩ := p
    by_cases hb : 2 < before.length
    · have he : longNamePart t = before.drop 2 := by
        simp [longNamePart, optPartOf, hsf, hb]
      rw [he]; exact hlen before hb
    · have he : longNamePart t = t.drop 2 := by
        simp [longNamePart, optPartOf, hsf, hb]
      rw [he]; exact hlen t h3

/-- `expandLongOption` raises an error exactly on an ambiguous
abbreviation. -/
theorem expandLongOption_error_iff (t : Str) (known : List Str)
    (h2 : t.take 2 = ['-', '-']) (h3 : 2 < t.length) :
    (∃ e, expandLongOption t known = .error e) ↔ ambiguousLongToken known t = true := by
  have hpfx := longNamePart_ne_nil t h3
  by_cases hk : known = []
  · subst hk
    simp [expandLongOption, ambiguousLongToken, h2]
  · rw [show expandLongOption t known =
      (if longNamePart t = [] then .ok t
       else if known.contains (longNamePart t) then
         .ok ('-' :: '-' :: longNamePart t ++ valPartOf t)
       else
         match known.filter (fun opt => (longNamePart t).isPrefixOf opt) with
         | [m] => .ok ('-' :: '-' :: m ++ valPartOf t)
         | [] => .ok t
         | ms => .error (ambiguousMsg (optPartOf t) ms)) by
      unfold expandLongOption
      rw [if_neg (by simp [h2, hk])]]
    rw [if_neg hpfx]
    by_cases hcont : known.contains (longNamePart t)
    · rw [if_pos hcont]
      have hmem : longNamePart t ∈ known := by simpa using hcont
      simp [ambiguousLongToken, hmem]
    · rw [if_neg hcont]
      rcases hf : known.filter (fun opt => (longNamePart t).isPrefixOf opt)
        with _ | ⟨m1, _ | ⟨m2, ms⟩⟩
      · simp [ambiguousLongToken, hcont, hf]
      · simp [ambiguousLongToken, hcont, hf]
      · simp [ambiguousLongToken, hcont, hf, h2, h3]
        simpa using hcont

/-- Once option parsing has stopped, the loop can no longer fail:
every later token is a positional (or a swallowed `--`). -/
theorem parseLoop_stop_ok (po : ParseOptions) :
    ∀ (l pos : List Str) (opts : OptMap), ∃ r, parseLoop po l true pos opts = .ok r := by
  intro l
  induction l with
  | nil => intro pos opts; exact ⟨(pos, opts), rfl⟩
  | cons arg rest ih =>
    intro pos opts
    by_cases h : arg = ['-', '-']
    · obtain ⟨r, hr⟩ := ih pos opts
      refine ⟨r, ?_⟩
      rw [show parseLoop po (arg :: rest) true pos opts = parseLoop po rest true pos opts
        from by simp [parseLoop, h]]
      exact hr
    · obtain ⟨r, hr⟩ := ih (pos ++ [arg]) opts
      refine ⟨r, ?_⟩
      rw [show parseLoop po (arg :: rest) true pos opts =
          parseLoop po rest true (pos ++ [arg]) opts from by simp [parseLoop, h]]
      exact hr

/-- A combined short-option scan consumes the next token only when that
token exists, is nonempty, and does not begin with a dash. -/
theorem shortCombined_consumed (takes : Char → Bool) (next eqValue : Option Str) :
    ∀ chars : Str, (shortCombined takes next eqValue chars).2 = true →
      ∃ n, next = some n ∧ n ≠ [] ∧ n.take 1 ≠ ['-'] := by
  intro chars
  induction chars with
  | nil => intro h; simp [shortCombined] at h
  | cons c restChars ih =>
    intro h
    by_cases ht : takes c = true
    · by_cases hr : restChars = []
      · subst hr
        cases heq : eqValue with
        | some v => rw [heq] at h; simp [shortCombined, ht] at h
        | none =>
          rw [heq] at h
          cases hnx : next with
          | some n =>
            rw [hnx] at h
            by_cases hn : n ≠ [] ∧ n.take 1 ≠ ['-']
            · exact ⟨n, rfl, hn.1, hn.2⟩
            · simp only [shortCombined, ht, if_true, if_neg hn] at h
              simp at h
          | none => rw [hnx] at h; simp [shortCombined, ht] at h
      · simp [shortCombined, ht, hr] at h
    · by_cases hr : restChars = []
      · subst hr
        cases heq : eqValue with
        | some v => rw [heq] at h; simp [shortCombined, ht] at h
        | none => rw [heq] at h; simp [shortCombined, ht] at h
      · simp only [shortCombined, ht, hr] at h
        simp at h
        exact ih h

/-- A `parseStep` failure can only come from long-option abbreviation
expansion, so the failing token is an ambiguous long option. -/
theorem parseStep_error_imp (po : ParseOptions) (arg : Str) (next : Option Str) (e : Str)
    (h : parseStep po arg next = .error e) :
    ambiguousLongToken po.knownOptions arg = true := by
  by_cases h1 : arg = ['-']
  · simp [parseStep, h1] at h
  by_cases h2 : arg.take 2 = ['-', '-'] ∧ 2 < arg.length
  · cases hexp : expandLongOption arg po.knownOptions with
    | error e1 =>
      exact (expandLongOption_error_iff arg po.knownOptions h2.1 h2.2).mp ⟨e1, hexp⟩
    | ok ex =>
      exfalso
      rcases hsf : splitFirst '=' (ex.drop 2) with _ | ⟨before, after⟩
      · simp [parseStep, h1, h2, hexp, hsf] at h
      · by_cases hb : before = []
        · simp [parseStep, h1, h2, hexp, hsf, hb] at h
        · simp [parseStep, h1, h2, hexp, hsf, hb] at h
  · exfalso
    simp only [parseStep, if_neg h1, if_neg h2] at h
    repeat' split at h
    all_goals simp at h

/-- When a `parseStep` succeeds and reports the next token consumed, that
token exists, is nonempty, and does not begin with a dash. -/
theorem parseStep_consumed (po : ParseOptions) (arg : Str) (next : Option Str) (st : StepRes)
    (h : parseStep po arg next = .ok st) (hc : st.consumed = true) :
    ∃ n, next = some n ∧ n ≠ [] ∧ n.take 1 ≠ ['-'] := by
  cases next <;> simp only [parseStep] at h <;> repeat' split at h
  all_goals cases h
  all_goals first
    | exact Bool.noConfusion hc
    | exact shortCombined_consumed _ _ _ _ hc
    | exact ⟨_, rfl, by tauto, by tauto⟩

/-- An ambiguous long-option token makes `parseStep` fail. -/
theorem parseStep_ambig_error (po : ParseOptions) (arg : Str) (next : Option Str)
    (h : ambiguousLongToken po.knownOptions arg = true) :
    ∃ e, parseStep po arg next = .error e := by
  have hsplit : arg.take 2 = ['-', '-'] ∧ 2 < arg.length := by
    simp only [ambiguousLongToken, Bool.and_eq_true, beq_iff_eq, decide_eq_true_eq] at h
    exact ⟨h.1.1.1, h.1.1.2⟩
  obtain ⟨e, hexp⟩ := (expandLongOption_error_iff arg po.knownOptions hsplit.1 hsplit.2).mpr h
  have h1 : ¬ (arg = ['-']) := by
    intro hcon
    rw [hcon] at hsplit
    simp at hsplit
  refine ⟨e, ?_⟩
  simp [parseStep, h1, hsplit.1, hsplit.2, hexp]

/-- The tokenizer loop fails exactly when an ambiguous long-option token
occurs before the first `--`. -/
theorem parseLoop_error_iff (po : ParseOptions) :
    ∀ (n : Nat) (l : List Str), l.length ≤ n → ∀ (pos : List Str) (opts : OptMap),
      ((∃ e, parseLoop po l false pos opts = .error e) ↔
        (l.takeWhile (fun t => !(t == ['-', '-']))).any
          (ambiguousLongToken po.knownOptions) = true) := by
  intro n
  induction n with
  | zero =>
    intro l hl pos opts
    have hnil : l = [] := List.length_eq_zero.mp (Nat.le_zero.mp hl)
    subst hnil
    simp [parseLoop]
  | succ n ih =>
    intro l hl pos opts
    cases l with
    | nil => simp [parseLoop]
    | cons arg rest =>
      by_cases hdd : arg = ['-', '-']
      · subst hdd
        obtain ⟨r, hr⟩ := parseLoop_stop_ok po rest pos opts
        have hstep : parseLoop po (['-', '-'] :: rest) false pos opts =
            parseLoop po rest true pos opts := by simp [parseLoop]
        rw [hstep, hr]
        simp
      · cases hps : parseStep po arg rest.head? with
        | error e =>
          have hamb := parseStep_error_imp po arg rest.head? e hps
          have hstep : parseLoop po (arg :: rest) false pos opts = .error e := by
            simp [parseLoop, hdd, hps]
          rw [hstep]
          simp [List.takeWhile_cons, hdd, hamb]
        | ok st =>
          have hamb : ambiguousLongToken po.knownOptions arg = false := by
            cases hv : ambiguousLongToken po.knownOptions arg with
            | false => rfl
            | true =>
              obtain ⟨e, he⟩ := parseStep_ambig_error po arg rest.head? hv
              rw [hps] at he
              exact Except.noConfusion he
          have hlen : rest.length ≤ n := by simp at hl; omega
          cases hcons : st.consumed with
          | false =>
            have hstep : parseLoop po (arg :: rest) false pos opts =
                parseLoop po rest false
                  (if st.isPositional then pos ++ [arg] else pos)
                  (st.sets.foldl (fun m kv => setOption m kv.1 kv.2) opts) := by
              simp [parseLoop, hdd, hps, hcons]
            rw [hstep, ih rest hlen _ _]
            simp [List.takeWhile_cons, hdd, hamb]
          | true =>
            obtain ⟨nv, hnv, hne, hn1⟩ := parseStep_consumed po arg rest.head? st hps hcons
            obtain ⟨rest2, hrest⟩ : ∃ rest2, rest = nv :: rest2 := by
              cases hr : rest with
              | nil => rw [hr] at hnv; exact absurd hnv (by simp)
              | cons a t =>
                rw [hr] at hnv
                simp at hnv
                exact ⟨t, by rw [hnv]⟩
            subst hrest
            simp only [List.head?_cons] at hps
            have hstep : parseLoop po (arg :: nv :: rest2) false pos opts =
                parseLoop po rest2 false
                  (if st.isPositional then pos ++ [arg] else pos)
                  (st.sets.foldl (fun m kv => setOption m kv.1 kv.2) opts) := by
              simp [parseLoop, hdd, hps, hcons]
            have hlen2 : rest2.length ≤ n := by simp at hl; omega
            rw [hstep, ih rest2 hlen2 _ _]
            have hnvdd : ¬ (nv = ['-', '-']) := by
              intro hcon; subst hcon; exact hn1 rfl
            have hnv2 : nv.take 2 ≠ ['-', '-'] := by
              intro hcon
              apply hn1
              cases nv with
              | nil => simp at hcon
              | cons a t =>
                rw [show (a :: t).take 2 = a :: t.take 1 from rfl] at hcon
                rw [show (a :: t).take 1 = [a] from rfl, (List.cons.inj hcon).1]
            have hnamb : ambiguousLongToken po.knownOptions nv = false := by
              have hb : (nv.take 2 == ['-', '-']) = false := by
                simpa using hnv2
              simp [ambiguousLongToken, hb]
            simp [List.takeWhile_cons, hdd, hamb, hnvdd, hnamb]

/-- Unfolding of `expandLongOption` past its pass-through guard. -/
theorem expandLongOption_eq_body (t : Str) (known : List Str)
    (h2 : t.take 2 = ['-', '-']) (hk : known ≠ []) :
    expandLongOption t known =
      (if longNamePart t = [] then .ok t
       else if known.contains (longNamePart t) then
         .ok ('-' :: '-' :: longNamePart t ++ valPartOf t)
       else
         match known.filter (fun opt => (longNamePart t).isPrefixOf opt) with
         | [m] => .ok ('-' :: '-' :: m ++ valPartOf t)
         | [] => .ok t
         | ms => .error (ambiguousMsg (optPartOf t) ms)) := by
  unfold expandLongOption
  rw [if_neg (by simp [h2, hk])]

/-- C8: `parseArgv` raises an error if and only if some processed
long-option token — one appearing before the first `--` — is an ambiguous
abbreviation (its extracted name is not itself known and has two or more
known-option prefix matches); every other input yields a `ParsedArgv`.
At the single-token level: an exact known name always wins over prefix
ambiguity, a unique prefix match expands to that option, zero matches pass
the token through unchanged, and the ambiguity error names all candidate
options. -/
theorem parseArgv_fails_iff_ambiguous (argv : List Str) (po : ParseOptions) :
    ((∃ e, parseArgv argv po = .error e) ↔
      (argv.takeWhile (fun t => !(t == ['-', '-']))).any
        (ambiguousLongToken po.knownOptions) = true) ∧
    ((argv.takeWhile (fun t => !(t == ['-', '-']))).any
        (ambiguousLongToken po.knownOptions) = false →
      ∃ r : ParsedArgv, parseArgv argv po = .ok r) ∧
    (∀ (t : Str) (known : List Str), t.take 2 = ['-', '-'] → 2 < t.length →
      known.contains (longNamePart t) = true →
      expandLongOption t known = .ok ('-' :: '-' :: longNamePart t ++ valPartOf t)) ∧
    (∀ (t : Str) (known : List Str) (m : Str),
      known.contains (longNamePart t) = false →
      known.filter (fun opt => (longNamePart t).isPrefixOf opt) = [m] →
      t.take 2 = ['-', '-'] → 2 < t.length →
      expandLongOption t known = .ok ('-' :: '-' :: m ++ valPartOf t)) ∧
    (∀ (t : Str) (known : List Str),
      known.filter (fun opt => (longNamePart t).isPrefixOf opt) = [] →
      expandLongOption t known = .ok t) ∧
    (∀ (t : Str) (known : List Str) (m1 m2 : Str) (ms : List Str),
      known.contains (longNamePart t) = false →
      known.filter (fun opt => (longNamePart t).isPrefixOf opt) = m1 :: m2 :: ms →
      t.take 2 = ['-', '-'] → 2 < t.length →
      expandLongOption t known = .error (ambiguousMsg (optPartOf t) (m1 :: m2 :: ms))) := by
  refine ⟨?_, ?_, ?_, ?_, ?_, ?_⟩
  · have hloop := parseLoop_error_iff po argv.length argv (le_refl _) [] []
    constructor
    · intro ⟨e, he⟩
      apply hloop.mp
      unfold parseArgv at he
      cases hl : parseLoop po argv false [] [] with
      | error e1 => exact ⟨e1, rfl⟩
      | ok r => rw [hl] at he; exact absurd he (by simp)
    · intro hamb
      obtain ⟨e, he⟩ := hloop.mpr hamb
      exact ⟨e, by unfold parseArgv; rw [he]⟩
  · intro hamb
    have hloop := parseLoop_error_iff po argv.length argv (le_refl _) [] []
    cases hl : parseLoop po argv false [] [] with
    | error e1 =>
      exact absurd (hloop.mp ⟨e1, hl⟩) (by simp [hamb])
    | ok r => exact ⟨⟨r.1, r.2, argv⟩, by unfold parseArgv; rw [hl]⟩
  · intro t known h2 h3 hcont
    have hk : known ≠ [] := by
      intro hcon; subst hcon; simp at hcont
    rw [expandLongOption_eq_body t known h2 hk, if_neg (longNamePart_ne_nil t h3),
      if_pos hcont]
  · intro t known m hcont hf h2 h3
    have hk : known ≠ [] := by
      intro hcon; subst hcon; simp at hf
    rw [expandLongOption_eq_body t known h2 hk, if_neg (longNamePart_ne_nil t h3),
      if_neg (by simpa using hcont), hf]
  · intro t known hf
    by_cases h2 : t.take 2 = ['-', '-']
    · by_cases hk : known = []
      · subst hk; simp [expandLongOption, h2]
      · by_cases hpfx : longNamePart t = []
        · rw [expandLongOption_eq_body t known h2 hk, if_pos hpfx]
        · have hcont : known.contains (longNamePart t) = false := by
            cases hc : known.contains (longNamePart t) with
            | false => rfl
            | true =>
              exfalso
              have hmem : longNamePart t ∈ known := by simpa using hc
              have : longNamePart t ∈
                  known.filter (fun opt => (longNamePart t).isPrefixOf opt) := by
                rw [List.mem_filter]
                exact ⟨hmem, List.isPrefixOf_iff_prefix.mpr List.prefix_rfl⟩
              rw [hf] at this
              exact absurd this (by simp)
          rw [expandLongOption_eq_body t known h2 hk, if_neg hpfx,
            if_neg (by simpa using hcont), hf]
    · simp [expandLongOption, h2]
  · intro t known m1 m2 ms hcont hf h2 h3
    have hk : known ≠ [] := by
      intro hcon; subst hcon; simp at hf
    rw [expandLongOption_eq_body t known h2 hk, if_neg (longNamePart_ne_nil t h3),
      if_neg (by simpa using hcont), hf]

/-- Concrete instantiation of `parseArgv_fails_iff_ambiguous`: `--ve`
against known options `verbose`/`version` fails, plain input parses, an
exact `--ver` beats the ambiguity with known `ver`, `--verb` uniquely
expands, `--zz` passes through, and the `--ve` error message names both
candidates. -/
theorem parseArgv_fails_iff_ambiguous_witness :
    (∃ e, parseArgv [('-' :: '-' :: 'v' :: 'e' :: [])]
      ⟨["verbose".toList, "version".toList], fun _ => false, []⟩ = .error e) ∧
    (∃ r : ParsedArgv, parseArgv ["hello".toList, "--verbose".toList]
      ⟨["verbose".toList, "version".toList], fun _ => false, []⟩ = .ok r) ∧
    expandLongOption "--ver".toList ["ver".toList, "verbose".toList] =
      .ok ('-' :: '-' :: longNamePart "--ver".toList ++ valPartOf "--ver".toList) ∧
    expandLongOption "--verb".toList ["verbose".toList, "version".toList] =
      .ok ('-' :: '-' :: "verbose".toList ++ valPartOf "--verb".toList) ∧
    expandLongOption "--zz".toList ["verbose".toList] = .ok "--zz".toList ∧
    expandLongOption "--ve".toList ["verbose".toList, "version".toList] =
      .error (ambiguousMsg (optPartOf "--ve".toList)
        ["verbose".toList, "version".toList]) := by
  refine ⟨?_, ?_, ?_, ?_, ?_, ?_⟩
  · exact (parseArgv_fails_iff_ambiguous [('-' :: '-' :: 'v' :: 'e' :: [])]
      ⟨["verbose".toList, "version".toList], fun _ => false, []⟩).1.mpr (by decide)
  · exact (parseArgv_fails_iff_ambiguous ["hello".toList, "--verbose".toList]
      ⟨["verbose".toList, "version".toList], fun _ => false, []⟩).2.1 (by decide)
  · exact (parseArgv_fails_iff_ambiguous [] ⟨[], fun _ => false, []⟩).2.2.1
      "--ver".toList ["ver".toList, "verbose".toList] (by decide) (by decide) (by decide)
  · exact (parseArgv_fails_iff_ambiguous [] ⟨[], fun _ => false, []⟩).2.2.2.1
      "--verb".toList ["verbose".toList, "version".toList] "verbose".toList
      (by decide) (by decide) (by decide) (by decide)
  · exact (parseArgv_fails_iff_ambiguous [] ⟨[], fun _ => false, []⟩).2.2.2.2.1
      "--zz".toList ["verbose".toList] (by decide)
  · exact (parseArgv_fails_iff_ambiguous [] ⟨[], fun _ => false, []⟩).2.2.2.2.2
      "--ve".toList ["verbose".toList, "version".toList] "verbose".toList "version".toList []
      (by decide) (by decide) (by decide) (by decide)

/-- A run of non-value-taking characters at the head of a combined
short-option token all become flags, and the scan continues. -/
theorem shortCombined_append_flags (takes : Char → Bool) (next eqValue : Option Str)
    (pre suffix : Str) (hpre : ∀ x ∈ pre, takes x = false) (hsuf : suffix ≠ []) :
    shortCombined takes next eqValue (pre ++ suffix) =
      ((pre.map fun x => (x, Scalar.bool true)) ++
          (shortCombined takes next eqValue suffix).1,
        (shortCombined takes next eqValue suffix).2) := by
  induction pre with
  | nil => simp
  | cons a pre ih =>
    have ha : takes a = false := hpre a (List.mem_cons_self a pre)
    have hne : pre ++ suffix ≠ [] := by
      intro hcon
      exact hsuf (List.append_eq_nil.mp hcon).2
    rw [List.cons_append]
    rw [show shortCombined takes next eqValue (a :: (pre ++ suffix)) =
        ((a, Scalar.bool true) :: (shortCombined takes next eqValue (pre ++ suffix)).1,
          (shortCombined takes next eqValue (pre ++ suffix)).2) from by
      simp [shortCombined, ha, hne]]
    rw [ih (fun x hx => hpre x (List.mem_cons_of_mem a hx))]
    simp

/-- C9: for a combined short-option token `-abc` the parser scans the
characters left to right.  The combined branch of the loop is exactly the
`shortCombined` scan; in that scan, if no character takes a value every
character becomes a `true` flag; an explicit `=value` suffix on an
all-flag run binds to the last parsed character and never consumes the
next token; the first value-taking character eats the nonempty remainder
of the token (characters before it become `true` flags), else an
equals-delimited suffix, else a next token that exists, is nonempty and
does not start with `-`; and the specification's two concrete examples
hold. -/
theorem parse_short_option_combining (po : ParseOptions) (next : Option Str) :
    (∀ chars : Str, chars.take 1 ≠ ['-'] → splitFirst '=' chars = none →
      2 ≤ chars.length →
      parseStep po ('-' :: chars) next =
        .ok ⟨false,
          (shortCombined po.shortTakesValue next none chars).1.map
            (fun p => ([p.1], p.2)),
          (shortCombined po.shortTakesValue next none chars).2⟩) ∧
    (∀ chars : Str, (∀ c ∈ chars, po.shortTakesValue c = false) →
      shortCombined po.shortTakesValue next none chars =
        (chars.map (fun c => (c, .bool true)), false)) ∧
    (∀ (pre : Str) (c : Char) (v : Str), (∀ x ∈ pre, po.shortTakesValue x = false) →
      po.shortTakesValue c = false →
      shortCombined po.shortTakesValue next (some v) (pre ++ [c]) =
        (pre.map (fun x => (x, .bool true)) ++ [(c, .str v)], false)) ∧
    (∀ (pre restChars : Str) (c : Char), (∀ x ∈ pre, po.shortTakesValue x = false) →
      po.shortTakesValue c = true → restChars ≠ [] →
      shortCombined po.shortTakesValue next none (pre ++ c :: restChars) =
        (pre.map (fun x => (x, .bool true)) ++ [(c, .str restChars)], false)) ∧
    (∀ (pre : Str) (c : Char) (v : Str), (∀ x ∈ pre, po.shortTakesValue x = false) →
      po.shortTakesValue c = true →
      shortCombined po.shortTakesValue next (some v) (pre ++ [c]) =
        (pre.map (fun x => (x, .bool true)) ++ [(c, .str v)], false)) ∧
    (∀ (pre : Str) (c : Char) (n : Str), (∀ x ∈ pre, po.shortTakesValue x = false) →
      po.shortTakesValue c = true → next = some n → n ≠ [] → n.take 1 ≠ ['-'] →
      shortCombined po.shortTakesValue next none (pre ++ [c]) =
        (pre.map (fun x => (x, .bool true)) ++ [(c, .str n)], true)) ∧
    parseArgv [['-', 'a', 'b', 'c']] ⟨[], fun _ => false, []⟩ =
      .ok ⟨[], [(['a'], .one (.bool true)), (['b'], .one (.bool true)),
        (['c'], .one (.bool true))], [['-', 'a', 'b', 'c']]⟩ ∧
    parseArgv [('-' :: 'f' :: "config.json".toList)] ⟨[], fun c => c == 'f', []⟩ =
      .ok ⟨[], [(['f'], .one (.str "config.json".toList))],
        [('-' :: 'f' :: "config.json".toList)]⟩ := by
  refine ⟨?_, ?_, ?_, ?_, ?_, ?_, ?_, ?_⟩
  · intro chars h1 hsf hlen
    obtain ⟨c1, c2, cs, rfl⟩ : ∃ c1 c2 cs, chars = c1 :: c2 :: cs := by
      cases chars with
      | nil => simp at hlen
      | cons a t =>
        cases t with
        | nil => simp at hlen
        | cons b u => exact ⟨a, b, u, rfl⟩
    have hc1 : c1 ≠ '-' := by
      intro hcon
      exact h1 (by simp [hcon])
    have hsfarg : splitFirst '=' ('-' :: c1 :: c2 :: cs) = none := by
      have hstep : splitFirst '=' ('-' :: c1 :: c2 :: cs) =
          match splitFirst '=' (c1 :: c2 :: cs) with
          | some (before, after) => some ('-' :: before, after)
          | none => none := by
        rw [show splitFirst '=' ('-' :: c1 :: c2 :: cs) =
            (if '-' = '=' then some ([], c1 :: c2 :: cs)
             else match splitFirst '=' (c1 :: c2 :: cs) with
               | some (before, after) => some ('-' :: before, after)
               | none => none) from rfl]
        rw [if_neg (by decide)]
      rw [hstep, hsf]
    simp [parseStep, hc1, hsfarg, hsf]
  · intro chars hall
    induction chars with
    | nil => simp [shortCombined]
    | cons c cs ih =>
      have hc := hall c (List.mem_cons_self c cs)
      have ihh := ih (fun x hx => hall x (List.mem_cons_of_mem c hx))
      by_cases hcs : cs = []
      · subst hcs; simp [shortCombined, hc]
      · rw [show shortCombined po.shortTakesValue next none (c :: cs) =
            ((c, Scalar.bool true) :: (shortCombined po.shortTakesValue next none cs).1,
              (shortCombined po.shortTakesValue next none cs).2) from by
          simp [shortCombined, hc, hcs]]
        rw [ihh]
        simp
  · intro pre c v hpre hc
    rw [shortCombined_append_flags po.shortTakesValue next (some v) pre [c] hpre
      (by simp)]
    simp [shortCombined, hc]
  · intro pre restChars c hpre hc hrest
    rw [shortCombined_append_flags po.shortTakesValue next none pre (c :: restChars) hpre
      (by simp)]
    simp [shortCombined, hc, hrest]
  · intro pre c v hpre hc
    rw [shortCombined_append_flags po.shortTakesValue next (some v) pre [c] hpre
      (by simp)]
    simp [shortCombined, hc]
  · intro pre c n hpre hc hn hne h1
    subst hn
    rw [shortCombined_append_flags po.shortTakesValue (some n) none pre [c] hpre
      (by simp)]
    simp [shortCombined, hc, hne, h1]
  · rfl
  · rfl

/-- Concrete instantiation of `parse_short_option_combining`: the combined
branch applies to `-ab`, `-abc` is all flags, `-ab=x` binds `x` to `b`,
`-af v` style combinations give `f` the remainder / the `=` suffix / the
next token. -/
theorem parse_short_option_combining_witness :
    parseStep ⟨[], fun _ => false, []⟩ ['-', 'a', 'b'] none =
      .ok ⟨false,
        (shortCombined (fun _ => false) none none ['a', 'b']).1.map
          (fun p => ([p.1], p.2)),
        (shortCombined (fun _ => false) none none ['a', 'b']).2⟩ ∧
    shortCombined (fun _ => false) none none ['a', 'b', 'c'] =
      (['a', 'b', 'c'].map (fun c => (c, .bool true)), false) ∧
    shortCombined (fun _ => false) none (some ['x']) (['a'] ++ ['b']) =
      (['a'].map (fun x => (x, .bool true)) ++ [('b', .str ['x'])], false) ∧
    shortCombined (fun c => c == 'f') none none (['a'] ++ 'f' :: ['v']) =
      (['a'].map (fun x => (x, .bool true)) ++ [('f', .str ['v'])], false) ∧
    shortCombined (fun c => c == 'f') none (some ['x']) (['a'] ++ ['f']) =
      (['a'].map (fun x => (x, .bool true)) ++ [('f', .str ['x'])], false) ∧
    shortCombined (fun c => c == 'f') (some ['n', 'x']) none (['a'] ++ ['f']) =
      (['a'].map (fun x => (x, .bool true)) ++ [('f', .str ['n', 'x'])], true) := by
  refine ⟨?_, ?_, ?_, ?_, ?_, ?_⟩
  · exact (parse_short_option_combining ⟨[], fun _ => false, []⟩ none).1
      ['a', 'b'] (by decide) (by decide) (by decide)
  · exact (parse_short_option_combining ⟨[], fun _ => false, []⟩ none).2.1
      ['a', 'b', 'c'] (by decide)
  · exact (parse_short_option_combining ⟨[], fun _ => false, []⟩ none).2.2.1
      ['a'] 'b' ['x'] (by decide) (by decide)
  · exact (parse_short_option_combining ⟨[], fun c => c == 'f', []⟩ none).2.2.2.1
      ['a'] ['v'] 'f' (by decide) (by decide) (by decide)
  · exact (parse_short_option_combining ⟨[], fun c => c == 'f', []⟩ none).2.2.2.2.1
      ['a'] 'f' ['x'] (by decide) (by decide)
  · exact (parse_short_option_combining ⟨[], fun c => c == 'f', []⟩
      (some ['n', 'x'])).2.2.2.2.2.1
      ['a'] 'f' ['n', 'x'] (by decide) (by decide) rfl (by decide) (by decide)

/-! ## Validation lemmas -/

/-- Assigning a fresh key appends it. -/
theorem objSet_append {α : Type} (acc : List (Str × α)) (f : Str) (v : α)
    (h : ∀ p ∈ acc, p.1 ≠ f) : objSet acc f v = acc ++ [(f, v)] := by
  induction acc with
  | nil => rfl
  | cons a rest ih =>
    obtain ⟨k, w⟩ := a
    have hk : k ≠ f := h (k, w) (List.mem_cons_self _ _)
    simp only [objSet, if_neg hk, List.cons_append]
    rw [ih (fun p hp => h p (List.mem_cons_of_mem _ hp))]

/-- Folding JS assignments of pairwise-distinct keys builds exactly the
zipped association list. -/
theorem foldl_objSet_zip (fields pos : List Str) (hnd : fields.Nodup) :
    (fields.zip pos).foldl (fun m fv => objSet m fv.1 fv.2) [] = fields.zip pos := by
  suffices h : ∀ (fields pos : List Str) (acc : List (Str × Str)),
      fields.Nodup → (∀ p ∈ acc, p.1 ∉ fields) →
      (fields.zip pos).foldl (fun m fv => objSet m fv.1 fv.2) acc =
        acc ++ fields.zip pos by
    simpa using h fields pos [] hnd (by simp)
  intro fields
  induction fields with
  | nil => intro pos acc _ _; simp
  | cons f fs ih =>
    intro pos acc hnd hdisj
    cases pos with
    | nil => simp
    | cons p ps =>
      simp only [List.zip_cons_cons, List.foldl_cons]
      have hfresh : ∀ q ∈ acc, q.1 ≠ f := by
        intro q hq hcon
        exact hdisj q hq (hcon ▸ List.mem_cons_self f fs)
      rw [objSet_append acc f p hfresh]
      rw [ih ps (acc ++ [(f, p)]) (List.nodup_cons.mp hnd).2 ?_]
      · simp
      · intro q hq
        rcases List.mem_append.mp hq with hq1 | hq2
        · exact fun hmem => hdisj q hq1 (List.mem_cons_of_mem f hmem)
        · have hq3 : q = (f, p) := by simpa using hq2
          rw [hq3]
          exact (List.nodup_cons.mp hnd).1

/-- C7: positional assignment fills required fields before optional
fields, each sub-list in declaration order: with distinct field names the
assigned object is exactly `requiredFields ++ optionalFields` zipped with
the positionals, and the specification's `{a: required, b: optional,
c: required}` examples evaluate as claimed — `["x","y"]` assigns `a`,`c`
and leaves `b` unset; `["x","y","z"]` assigns `a="x"`, `c="y"`,
`b="z"`. -/
theorem prepareArgsInput_required_before_optional :
    (∀ (entries : SchemaEntries) (positionals : List Str)
        (rv : Option (Str → VRes Str)),
      (requiredFieldsOf entries ++ optionalFieldsOf entries).Nodup →
      (prepareArgsInput entries positionals rv).args =
        (requiredFieldsOf entries ++ optionalFieldsOf entries).zip positionals) ∧
    prepareArgsInput
        [(['a'], ⟨false, false, false⟩), (['b'], ⟨true, false, false⟩),
          (['c'], ⟨false, false, false⟩)] [['x'], ['y']] none =
      ⟨[(['a'], ['x']), (['c'], ['y'])], [], []⟩ ∧
    prepareArgsInput
        [(['a'], ⟨false, false, false⟩), (['b'], ⟨true, false, false⟩),
          (['c'], ⟨false, false, false⟩)] [['x'], ['y'], ['z']] none =
      ⟨[(['a'], ['x']), (['c'], ['y']), (['b'], ['z'])], [], []⟩ := by
  refine ⟨?_, by decide, by decide⟩
  intro entries positionals rv hnd
  have hargs : (prepareArgsInput entries positionals rv).args =
      ((requiredFieldsOf entries ++ optionalFieldsOf entries).zip positionals).foldl
        (fun m fv => objSet m fv.1 fv.2) [] := by
    unfold prepareArgsInput
    cases rv with
    | none => dsimp only; split <;> rfl
    | some f => dsimp only; split <;> rfl
  rw [hargs, foldl_objSet_zip _ _ hnd]

/-- Concrete instantiation of `prepareArgsInput_required_before_optional`:
the `{a, b, c}` schema has distinct field names, so its assignment is the
required-then-optional zip. -/
theorem prepareArgsInput_required_before_optional_witness :
    (prepareArgsInput
        [(['a'], ⟨false, false, false⟩), (['b'], ⟨true, false, false⟩),
          (['c'], ⟨false, false, false⟩)] [['x'], ['y']] none).args =
      (requiredFieldsOf
          [(['a'], ⟨false, false, false⟩), (['b'], ⟨true, false, false⟩),
            (['c'], ⟨false, false, false⟩)] ++
        optionalFieldsOf
          [(['a'], ⟨false, false, false⟩), (['b'], ⟨true, false, false⟩),
            (['c'], ⟨false, false, false⟩)]).zip [['x'], ['y']] :=
  (prepareArgsInput_required_before_optional).1
    [(['a'], ⟨false, false, false⟩), (['b'], ⟨true, false, false⟩),
      (['c'], ⟨false, false, false⟩)] [['x'], ['y']] none (by decide)

/-- `objHas` is stable under maps that keep the key. -/
theorem objHas_map {α β : Type} (g : Str × α → Str × β)
    (hg : ∀ p, (g p).1 = p.1) (l : List (Str × α)) (key : Str) :
    objHas (l.map g) key = objHas l key := by
  induction l with
  | nil => rfl
  | cons a rest ih =>
    simp only [objHas, List.map_cons, List.any_cons] at ih ⊢
    rw [hg a, ih]

/-- A key present in the accumulator survives the default-injection fold. -/
theorem objHas_foldl_defaults_mono (entries : SchemaEntries) (key : Str) :
    ∀ input : OptMap, objHas input key = true →
      objHas (entries.foldl
        (fun input e =>
          if ¬ objHas input e.1 = true ∧ e.2.isBoolean = true ∧ ¬ e.2.isOptional = true then
            input ++ [(e.1, if e.2.isList then OptVal.many [] else OptVal.one (.bool false))]
          else input)
        input) key = true := by
  induction entries with
  | nil => intro input h; exact h
  | cons e es ih =>
    intro input h
    simp only [List.foldl_cons]
    split
    · apply ih
      simp only [objHas, List.any_append] at h ⊢
      rw [h, Bool.true_or]
    · exact ih _ h

/-- A boolean non-optional schema field absent or not from the input is
present after the default-injection fold. -/
theorem objHas_foldl_defaults_of_mem (k : Str) (fs : FieldSchema)
    (hb : fs.isBoolean = true) (ho : fs.isOptional = false) :
    ∀ entries : SchemaEntries, (k, fs) ∈ entries → ∀ input : OptMap,
      objHas (entries.foldl
        (fun input e =>
          if ¬ objHas input e.1 = true ∧ e.2.isBoolean = true ∧ ¬ e.2.isOptional = true then
            input ++ [(e.1, if e.2.isList then OptVal.many [] else OptVal.one (.bool false))]
          else input)
        input) k = true := by
  intro entries
  induction entries with
  | nil => intro hmem; cases hmem
  | cons e es ih =>
    intro hmem input
    simp only [List.foldl_cons]
    rcases List.mem_cons.mp hmem with heq | hmem2
    · obtain rfl : e = (k, fs) := heq.symm
      by_cases hh : objHas input k = true
      · rw [if_neg (by simp [hh])]
        exact objHas_foldl_defaults_mono es k input hh
      · rw [if_pos ⟨by simpa using hh, hb, by simp [ho]⟩]
        apply objHas_foldl_defaults_mono
        simp only [objHas, List.any_append]
        have : ([(k, if fs.isList then OptVal.many [] else OptVal.one (.bool false))].any
            fun p => p.1 == k) = true := by simp
        rw [this, Bool.or_true]
    · exact ih hmem2 _

/-- C6: constraint evaluation uses the set of option keys the user
actually supplied, captured before boolean-default injection.  The
declarative constraints fire depending only on that key set — `exclusive`
exactly when two or more of its keys were user-supplied, `dependsOn` and
`requiredTogether` with the same presence test — so a framework-defaulted
non-optional boolean never counts as present even though the default is
injected into the validated value map; all violated constraints are
collected and reported together; and a throwing custom predicate is
caught and reported as that constraint's own failure message. -/
theorem checkConstraints_user_supplied_keys :
    (∀ (entries : SchemaEntries) (input : OptMap) (ks : List Str) (d : Option Str),
      (commandConstraintCheck entries input [.exclusive ks d]).valid = false ↔
        2 ≤ (ks.filter (fun k => (input.map Prod.fst).contains k)).length) ∧
    (∀ (entries : SchemaEntries) (input : OptMap) (k : Str) (req : List Str)
        (d : Option Str),
      (commandConstraintCheck entries input [.dependsOn k req d]).valid = false ↔
        ((input.map Prod.fst).contains k = true ∧
          0 < (req.filter (fun r => !((input.map Prod.fst).contains r))).length)) ∧
    (∀ (entries : SchemaEntries) (input : OptMap) (ks : List Str) (d : Option Str),
      (commandConstraintCheck entries input [.requiredTogether ks d]).valid = false ↔
        (0 < (ks.filter (fun k => (input.map Prod.fst).contains k)).length ∧
          (ks.filter (fun k => (input.map Prod.fst).contains k)).length < ks.length)) ∧
    (∀ (entries : SchemaEntries) (input : OptMap) (k : Str) (fs : FieldSchema),
      (k, fs) ∈ entries → fs.isBoolean = true → fs.isOptional = false →
      objHas (prepareOptionsInput entries input) k = true) ∧
    (∀ (opts : OptMap) (u : Option (List Str)) (cs1 cs2 : List ConstraintDef),
      (checkConstraints opts (cs1 ++ cs2) u).errors =
        (checkConstraints opts cs1 u).errors ++ (checkConstraints opts cs2 u).errors) ∧
    (∀ (opts : OptMap) (u : Option (List Str)) (cs : List ConstraintDef),
      (checkConstraints opts cs u).valid = (checkConstraints opts cs u).errors.isEmpty) ∧
    (∀ (opts : OptMap) (u : Option (List Str)) (d : Str)
        (f : OptMap → Except Str Bool) (m : Str),
      f opts = .error m →
      checkConstraints opts [.custom d f] u = ⟨false, [d ++ ": ".toList ++ m]⟩) := by
  refine ⟨?_, ?_, ?_, ?_, ?_, ?_, ?_⟩
  · intro entries input ks d
    simp only [commandConstraintCheck, checkConstraints, constraintErrors,
      exclusiveError, isOptionPresent, List.append_nil]
    by_cases hcnt :
        1 < (ks.filter fun k => (input.map Prod.fst).contains k).length
    · rw [if_pos hcnt]
      exact ⟨fun _ => by omega, fun _ => rfl⟩
    · rw [if_neg hcnt]
      exact ⟨fun h => Bool.noConfusion h, fun h => absurd h (by omega)⟩
  · intro entries input k req d
    simp only [commandConstraintCheck, checkConstraints, constraintErrors,
      dependsOnError, isOptionPresent, List.append_nil]
    by_cases hk : (input.map Prod.fst).contains k = true
    · rw [if_neg (fun hcon => hcon hk)]
      by_cases hm : (req.filter fun r => !((input.map Prod.fst).contains r)).length > 0
      · rw [if_pos hm]
        exact ⟨fun _ => ⟨hk, hm⟩, fun _ => rfl⟩
      · rw [if_neg hm]
        exact ⟨fun h => Bool.noConfusion h, fun h => absurd h.2 (by omega)⟩
    · rw [if_pos hk]
      exact ⟨fun h => Bool.noConfusion h, fun h => absurd h.1 hk⟩
  · intro entries input ks d
    simp only [commandConstraintCheck, checkConstraints, constraintErrors,
      requiredTogetherError, isOptionPresent, List.append_nil]
    by_cases hc : 0 < (ks.filter fun k => (input.map Prod.fst).contains k).length ∧
        (ks.filter fun k => (input.map Prod.fst).contains k).length < ks.length
    · rw [if_pos hc]
      exact ⟨fun _ => hc, fun _ => rfl⟩
    · rw [if_neg hc]
      exact ⟨fun h => Bool.noConfusion h, fun h => absurd h hc⟩
  · intro entries input k fs hmem hb ho
    unfold prepareOptionsInput
    dsimp only
    rw [objHas_map _ ?_ _ k]
    · exact objHas_foldl_defaults_of_mem k fs hb ho entries hmem input
    · intro p
      obtain ⟨k', v⟩ := p
      cases v <;> dsimp only <;> split <;> rfl
  · intro opts u cs1 cs2
    show constraintErrors opts u (cs1 ++ cs2) =
      constraintErrors opts u cs1 ++ constraintErrors opts u cs2
    induction cs1 with
    | nil => rfl
    | cons c rest ih =>
      simp only [List.cons_append, constraintErrors, List.append_eq, ih, List.append_assoc]
  · intro opts u cs
    rfl
  · intro opts u d f m hf
    simp [checkConstraints, constraintErrors, hf]

/-- Concrete instantiation of `checkConstraints_user_supplied_keys`: with
schema `{verbose: non-optional boolean}` and only `other` user-supplied,
`exclusive(["verbose","other"])` does not fire even though `verbose` is
defaulted into the validated value map; with both keys user-supplied it
fires; and a throwing custom predicate reports its own message. -/
theorem checkConstraints_user_supplied_keys_witness :
    (commandConstraintCheck exEntriesVerbose exInputOther
        [.exclusive ["verbose".toList, "other".toList] none]).valid = true ∧
    (commandConstraintCheck exEntriesVerbose exInputBoth
        [.exclusive ["verbose".toList, "other".toList] none]).valid = false ∧
    objHas (prepareOptionsInput exEntriesVerbose exInputOther) "verbose".toList = true ∧
    checkConstraints [] [.custom "bad".toList (fun _ => .error "boom".toList)] none =
      ⟨false, ["bad".toList ++ ": ".toList ++ "boom".toList]⟩ := by
  refine ⟨?_, ?_, ?_, ?_⟩
  · have h := (checkConstraints_user_supplied_keys).1 exEntriesVerbose exInputOther
      ["verbose".toList, "other".toList] none
    rcases Bool.eq_false_or_eq_true
        ((commandConstraintCheck exEntriesVerbose exInputOther
          [.exclusive ["verbose".toList, "other".toList] none]).valid) with hv | hv
    · exact hv
    · exact absurd (h.mp hv) (by decide)
  · exact (checkConstraints_user_supplied_keys).1 exEntriesVerbose exInputBoth
      ["verbose".toList, "other".toList] none |>.mpr (by decide)
  · exact (checkConstraints_user_supplied_keys).2.2.2.1 exEntriesVerbose exInputOther
      "verbose".toList ⟨false, true, false⟩ (by decide) rfl rfl
  · exact (checkConstraints_user_supplied_keys).2.2.2.2.2.2 []
      none "bad".toList (fun _ => .error "boom".toList) "boom".toList rfl

/-! ## Orchestrator lemmas -/

/-- Characterization of a pre list run: the called indices are an initial
range, and the abort is the list's first non-continuing payload. -/
theorem runPreList_eq (mk : Nat → Event) (hooks : List PreOutcome) :
    ∀ i, runPreList mk hooks i =
      ((List.range (calledCount hooks)).map (fun k => mk (i + k)), listAbort hooks) := by
  induction hooks with
  | nil => intro i; rfl
  | cons h rest ih =>
    intro i
    cases h with
    | cont =>
      have hstep : runPreList mk (.cont :: rest) i =
          (mk i :: (runPreList mk rest (i + 1)).1, (runPreList mk rest (i + 1)).2) := rfl
      rw [hstep, ih (i + 1)]
      simp only [calledCount, listAbort]
      rw [List.range_succ_eq_map]
      simp only [List.map_cons, List.map_map, Nat.add_zero]
      have hfun : ((fun k => mk (i + k)) ∘ Nat.succ) = fun k => mk (i + 1 + k) := by
        funext k
        simp only [Function.comp_apply]
        congr 1
        omega
      rw [hfun]
    | abort r =>
      simp only [runPreList, calledCount, listAbort]
      rw [show List.range 1 = [0] from rfl]
      simp
    | throws m =>
      simp only [runPreList, calledCount, listAbort]
      rw [show List.range 1 = [0] from rfl]
      simp

/-- A pre list run from index 0 produces `preCalls`. -/
theorem runPreList_zero (mk : Nat → Event) (hooks : List PreOutcome) :
    runPreList mk hooks 0 = (preCalls mk hooks, listAbort hooks) := by
  rw [runPreList_eq mk hooks 0]
  unfold preCalls
  have hfun : (fun k => mk (0 + k)) = mk := by
    funext k
    rw [Nat.zero_add]
  rw [hfun]

/-- Characterization of the group pre phase. -/
theorem runGroupsPre_eq (groups : List GroupCfg) :
    ∀ g, runGroupsPre groups g = (groupsPreTrace groups g, groupsAbortSpec groups) := by
  induction groups with
  | nil => intro g; rfl
  | cons grp rest ih =>
    intro g
    cases hab : listAbort grp.pre with
    | some r =>
      simp only [runGroupsPre, runPreList_zero, hab, groupsPreTrace, groupsAbortSpec]
    | none =>
      simp only [runGroupsPre, runPreList_zero, hab, groupsPreTrace, groupsAbortSpec,
        ih (g + 1)]

/-- The orchestrator's trace is exactly the specification's state-machine
trace. -/
theorem executeWithHooks_eq_specTrace (cfg : OrchCfg) :
    executeWithHooks cfg = specTrace cfg := by
  unfold executeWithHooks specTrace
  simp only [runPreList_zero, runGroupsPre_eq]
  cases hcli : listAbort cfg.cliPre with
  | some r => simp [specAbort, specResult, hcli]
  | none =>
    cases hgrp : groupsAbortSpec cfg.groupsInPath with
    | some r => simp [specAbort, specResult, hcli, hgrp]
    | none =>
      cases hcmd : listAbort cfg.cmdPre with
      | some r => simp [specAbort, specResult, hcli, hgrp, hcmd]
      | none =>
        cases hact : cfg.action with
        | ok => simp [specAbort, specResult, hcli, hgrp, hcmd, hact]
        | throws m => simp [specAbort, specResult, hcli, hgrp, hcmd, hact]

/-- Call count of one hook index in a post list: exactly one when the
index is in range. -/
theorem runPostList_count (evOf : Nat → ActionResult → Event) (test : Event → Bool)
    (j : Nat) (res : ActionResult)
    (htest : ∀ k r, test (evOf k r) = (k == j))
    (hlog : ∀ m, test (.logErr m) = false) :
    ∀ (hooks : List PostOutcome) (i : Nat),
      ((runPostList evOf hooks res i).filter test).length =
        if i ≤ j ∧ j < i + hooks.length then 1 else 0 := by
  intro hooks
  induction hooks with
  | nil =>
    intro i
    rw [if_neg (by simp only [List.length_nil]; omega)]
    rfl
  | cons h rest ih =>
    intro i
    cases hbeq : (i == j) with
    | true =>
      have hij : i = j := eq_of_beq hbeq
      cases h with
      | ok =>
        rw [show (runPostList evOf (.ok :: rest) res i).filter test =
            evOf i res :: (runPostList evOf rest res (i + 1)).filter test from by
          simp [runPostList, List.filter_cons, htest, hbeq]]
        simp only [List.length_cons]
        rw [ih (i + 1), if_neg (by omega), if_pos (by omega)]
      | throws m =>
        rw [show (runPostList evOf (.throws m :: rest) res i).filter test =
            evOf i res :: (runPostList evOf rest res (i + 1)).filter test from by
          simp [runPostList, List.filter_cons, htest, hlog, hbeq]]
        simp only [List.length_cons]
        rw [ih (i + 1), if_neg (by omega), if_pos (by omega)]
    | false =>
      have hij : i ≠ j := by
        intro hcon
        subst hcon
        simp at hbeq
      cases h with
      | ok =>
        rw [show (runPostList evOf (.ok :: rest) res i).filter test =
            (runPostList evOf rest res (i + 1)).filter test from by
          simp [runPostList, List.filter_cons, htest, hbeq]]
        rw [ih (i + 1)]
        by_cases hcond : i + 1 ≤ j ∧ j < i + 1 + rest.length
        · rw [if_pos hcond, if_pos (by simp only [List.length_cons]; omega)]
        · rw [if_neg hcond, if_neg (by simp only [List.length_cons]; omega)]
      | throws m =>
        rw [show (runPostList evOf (.throws m :: rest) res i).filter test =
            (runPostList evOf rest res (i + 1)).filter test from by
          simp [runPostList, List.filter_cons, htest, hlog, hbeq]]
        rw [ih (i + 1)]
        by_cases hcond : i + 1 ≤ j ∧ j < i + 1 + rest.length
        · rw [if_pos hcond, if_pos (by simp only [List.length_cons]; omega)]
        · rw [if_neg hcond, if_neg (by simp only [List.length_cons]; omega)]

/-- A post list contributes nothing to a test false on its own calls. -/
theorem runPostList_filter_nil (evOf : Nat → ActionResult → Event) (test : Event → Bool)
    (res : ActionResult)
    (htest : ∀ k r, test (evOf k r) = false)
    (hlog : ∀ m, test (.logErr m) = false) :
    ∀ (hooks : List PostOutcome) (i : Nat),
      (runPostList evOf hooks res i).filter test = [] := by
  intro hooks
  induction hooks with
  | nil => intro i; rfl
  | cons h rest ih =>
    intro i
    cases h with
    | ok => simp [runPostList, List.filter_cons, htest, ih (i + 1)]
    | throws m => simp [runPostList, List.filter_cons, htest, hlog, ih (i + 1)]

/-- A key absent from an association list looks up to nothing. -/
theorem lookup_eq_none_of_not_mem {β : Type} (g : Nat) :
    ∀ l : List (Nat × β), g ∉ l.map Prod.fst → l.lookup g = none := by
  intro l
  induction l with
  | nil => intro _; rfl
  | cons a rest ih =>
    intro hmem
    obtain ⟨k, v⟩ := a
    simp only [List.map_cons, List.mem_cons, not_or] at hmem
    have hbeq : (g == k) = false := by
      rw [beq_eq_false_iff_ne]
      exact hmem.1
    simp [List.lookup, hbeq, ih hmem.2]

/-- With pairwise-distinct keys, a member pair is what lookup returns. -/
theorem lookup_eq_some_of_mem {β : Type} (g : Nat) (b : β) :
    ∀ l : List (Nat × β), (l.map Prod.fst).Nodup → (g, b) ∈ l → l.lookup g = some b := by
  intro l
  induction l with
  | nil => intro _ hmem; cases hmem
  | cons a rest ih =>
    intro hnd hmem
    obtain ⟨k, v⟩ := a
    simp only [List.map_cons, List.nodup_cons] at hnd
    rcases List.mem_cons.mp hmem with heq | hmem2
    · obtain ⟨hk, hv⟩ := Prod.mk.inj heq
      subst hk; subst hv
      simp [List.lookup]
    · have hg : g ∈ rest.map Prod.fst :=
        List.mem_map.mpr ⟨(g, b), hmem2, rfl⟩
      have hbeq : (g == k) = false := by
        rw [beq_eq_false_iff_ne]
        exact fun hcon => hnd.1 (hcon ▸ hg)
      simp [List.lookup, hbeq, ih hnd.2 hmem2]

/-- Call count of one group's hook index in the group post phase: with
distinct group indices, exactly the contribution of that group. -/
theorem runGroupsPost_count (g j : Nat) (res : ActionResult) :
    ∀ pairs : List (Nat × GroupCfg), (pairs.map Prod.fst).Nodup →
      ((runGroupsPost pairs res).filter (isGroupPost g j)).length =
        (match pairs.lookup g with
         | some grp => if j < grp.post.length then 1 else 0
         | none => 0) := by
  intro pairs
  induction pairs with
  | nil => intro _; rfl
  | cons a rest ih =>
    intro hnd
    obtain ⟨a1, grp⟩ := a
    simp only [List.map_cons, List.nodup_cons] at hnd
    rw [show runGroupsPost ((a1, grp) :: rest) res =
        runPostList (Event.groupPostCall a1) grp.post res 0 ++ runGroupsPost rest res
      from rfl]
    rw [List.filter_append, List.length_append]
    cases hbeq : (a1 == g) with
    | true =>
      have hag : a1 = g := eq_of_beq hbeq
      subst hag
      rw [runPostList_count (Event.groupPostCall a1) (isGroupPost a1 j) j res
        (fun k r => by simp [isGroupPost]) (fun m => rfl) grp.post 0]
      rw [ih hnd.2, lookup_eq_none_of_not_mem a1 rest hnd.1]
      rw [show (((a1, grp) :: rest).lookup a1) = some grp from by simp [List.lookup]]
      show (if 0 ≤ j ∧ j < 0 + grp.post.length then 1 else 0) + 0 =
        if j < grp.post.length then 1 else 0
      by_cases hj : j < grp.post.length
      · rw [if_pos (show 0 ≤ j ∧ j < 0 + grp.post.length by omega), if_pos hj]
      · rw [if_neg (show ¬(0 ≤ j ∧ j < 0 + grp.post.length) by omega), if_neg hj]
    | false =>
      have hbeq2 : (g == a1) = false := by
        rw [beq_eq_false_iff_ne]
        intro hcon
        rw [hcon] at hbeq
        simp at hbeq
      rw [runPostList_filter_nil (Event.groupPostCall a1) (isGroupPost g j) res
        (fun k r => by simp [isGroupPost, hbeq]) (fun m => rfl) grp.post 0]
      rw [ih hnd.2]
      rw [show (((a1, grp) :: rest).lookup g) = rest.lookup g from by
        simp [List.lookup, hbeq2]]
      rw [show ([] : List Event).length = 0 from rfl, Nat.zero_add]

/-- Elements of `preCalls` are calls of its constructor. -/
theorem mem_preCalls {mk : Nat → Event} {hooks : List PreOutcome} {e : Event}
    (h : e ∈ preCalls mk hooks) : ∃ k, e = mk k := by
  unfold preCalls at h
  obtain ⟨k, _, hk⟩ := List.mem_map.mp h
  exact ⟨k, hk.symm⟩

/-- Elements of the group pre phase are group pre calls. -/
theorem mem_groupsPreTrace :
    ∀ (groups : List GroupCfg) (g : Nat) (e : Event), e ∈ groupsPreTrace groups g →
      ∃ g2 k, e = Event.groupPreCall g2 k := by
  intro groups
  induction groups with
  | nil => intro g e h; cases h
  | cons grp rest ih =>
    intro g e h
    unfold groupsPreTrace at h
    cases hab : listAbort grp.pre with
    | some r =>
      rw [hab] at h
      obtain ⟨k, hk⟩ := mem_preCalls h
      exact ⟨g, k, hk⟩
    | none =>
      rw [hab] at h
      rcases List.mem_append.mp h with h1 | h2
      · obtain ⟨k, hk⟩ := mem_preCalls h1
        exact ⟨g, k, hk⟩
      · exact ih (g + 1) e h2

/-- Elements of a post list run are calls with the shared result, or
error logs. -/
theorem mem_runPostList {evOf : Nat → ActionResult → Event} {res : ActionResult} :
    ∀ (hooks : List PostOutcome) (i : Nat) (e : Event), e ∈ runPostList evOf hooks res i →
      (∃ k, e = evOf k res) ∨ (∃ m, e = Event.logErr m) := by
  intro hooks
  induction hooks with
  | nil => intro i e h; cases h
  | cons h rest ih =>
    intro i e hmem
    cases h with
    | ok =>
      rcases List.mem_cons.mp hmem with heq | h2
      · exact Or.inl ⟨i, heq⟩
      · exact ih (i + 1) e h2
    | throws m =>
      rcases List.mem_cons.mp hmem with heq | h2
      · exact Or.inl ⟨i, heq⟩
      · rcases List.mem_cons.mp h2 with heq2 | h3
        · exact Or.inr ⟨_, heq2⟩
        · exact ih (i + 1) e h3

/-- Elements of the group post phase are group post calls with the shared
result, or error logs. -/
theorem mem_runGroupsPost {res : ActionResult} :
    ∀ (pairs : List (Nat × GroupCfg)) (e : Event), e ∈ runGroupsPost pairs res →
      (∃ g k, e = Event.groupPostCall g k res) ∨ (∃ m, e = Event.logErr m) := by
  intro pairs
  induction pairs with
  | nil => intro e h; cases h
  | cons a rest ih =>
    intro e h
    obtain ⟨a1, grp⟩ := a
    rcases List.mem_append.mp h with h1 | h2
    · rcases mem_runPostList grp.post 0 e h1 with ⟨k, hk⟩ | hm
      · exact Or.inl ⟨a1, k, hk⟩
      · exact Or.inr hm
    · exact ih e h2

/-- A `get?` hit enumerates into `enumFrom` membership at the shifted
index. -/
theorem mem_enumFrom_of_get {α : Type} :
    ∀ (l : List α) (n g : Nat) (a : α), l.get? g = some a → (n + g, a) ∈ l.enumFrom n := by
  intro l
  induction l with
  | nil => intro n g a h; simp at h
  | cons x t ih =>
    intro n g a h
    cases g with
    | zero =>
      simp only [List.get?] at h
      cases h
      simp [List.enumFrom]
    | succ k =>
      simp only [List.get?] at h
      have hmem := ih (n + 1) k a h
      rw [show n + (k + 1) = n + 1 + k from by omega]
      exact List.mem_cons_of_mem _ hmem

/-- A `get?` hit is a member of `enum` with its index. -/
theorem mem_enum_of_get {α : Type} (l : List α) (g : Nat) (a : α)
    (h : l.get? g = some a) : (g, a) ∈ l.enum := by
  have hmem := mem_enumFrom_of_get l 0 g a h
  simpa using hmem

/-- The group indices of the reversed enumeration are pairwise distinct. -/
theorem enum_reverse_fst_nodup {α : Type} (l : List α) :
    ((l.enum.reverse).map Prod.fst).Nodup := by
  rw [List.map_reverse, List.enum_map_fst]
  exact List.nodup_reverse.mpr (List.nodup_range _)

/-- Replacing every group's post list leaves the group pre-phase abort
reason unchanged. -/
theorem groupsAbortSpec_map_post (f : GroupCfg → List PostOutcome) :
    ∀ groups : List GroupCfg,
      groupsAbortSpec (groups.map (fun g => { g with post := f g })) =
        groupsAbortSpec groups := by
  intro groups
  induction groups with
  | nil => rfl
  | cons grp rest ih =>
    simp only [List.map_cons]
    cases hab : listAbort grp.pre with
    | some r => simp [groupsAbortSpec, hab]
    | none => simp [groupsAbortSpec, hab, ih]

/-- Replacing the post hook lists at every level leaves the defaulted
abort reason unchanged. -/
theorem specAbort_replace_posts (cfg : OrchCfg) (cp clp : List PostOutcome)
    (f : GroupCfg → List PostOutcome) :
    specAbort { cfg with
        cmdPost := cp
        cliPost := clp
        groupsInPath := cfg.groupsInPath.map (fun g => { g with post := f g }) } =
      specAbort cfg := by
  unfold specAbort
  rw [groupsAbortSpec_map_post]

/-- Replacing the post hook lists at every level leaves the shared
`ActionResult` unchanged. -/
theorem specResult_replace_posts (cfg : OrchCfg) (cp clp : List PostOutcome)
    (f : GroupCfg → List PostOutcome) :
    specResult { cfg with
        cmdPost := cp
        cliPost := clp
        groupsInPath := cfg.groupsInPath.map (fun g => { g with post := f g }) } =
      specResult cfg := by
  unfold specResult
  rw [specAbort_replace_posts]

/-- Replacing the post hook lists at every level leaves the exit status
unchanged. -/
theorem specExit_replace_posts (cfg : OrchCfg) (cp clp : List PostOutcome)
    (f : GroupCfg → List PostOutcome) :
    specExit { cfg with
        cmdPost := cp
        cliPost := clp
        groupsInPath := cfg.groupsInPath.map (fun g => { g with post := f g }) } =
      specExit cfg := by
  unfold specExit
  rw [specAbort_replace_posts]

/-- A throwing hook's error log is in the post list trace. -/
theorem runPostList_log_mem (evOf : Nat → ActionResult → Event) (res : ActionResult) :
    ∀ (hooks : List PostOutcome) (i0 i : Nat) (m : String),
      hooks.get? i = some (.throws m) →
      Event.logErr ("[postAction hook error] " ++ m) ∈ runPostList evOf hooks res i0 := by
  intro hooks
  induction hooks with
  | nil => intro i0 i m h; simp at h
  | cons h rest ih =>
    intro i0 i m hget
    cases i with
    | zero =>
      simp only [List.get?] at hget
      cases hget
      simp [runPostList]
    | succ k =>
      simp only [List.get?] at hget
      have hmem := ih (i0 + 1) k m hget
      cases h with
      | ok => exact List.mem_cons_of_mem _ hmem
      | throws m2 => exact List.mem_cons_of_mem _ (List.mem_cons_of_mem _ hmem)

/-- Every in-range hook's call event is in the post list trace. -/
theorem runPostList_call_mem (evOf : Nat → ActionResult → Event) (res : ActionResult) :
    ∀ (hooks : List PostOutcome) (i0 i : Nat), i < hooks.length →
      evOf (i0 + i) res ∈ runPostList evOf hooks res i0 := by
  intro hooks
  induction hooks with
  | nil => intro i0 i h; simp at h
  | cons h rest ih =>
    intro i0 i hi
    cases i with
    | zero =>
      rw [Nat.add_zero]
      cases h with
      | ok => exact List.mem_cons_self _ _
      | throws m => exact List.mem_cons_self _ _
    | succ k =>
      have hk : k < rest.length := by simp only [List.length_cons] at hi; omega
      have hmem := ih (i0 + 1) k hk
      rw [show i0 + (k + 1) = i0 + 1 + k from by omega]
      cases h with
      | ok => exact List.mem_cons_of_mem _ hmem
      | throws m => exact List.mem_cons_of_mem _ (List.mem_cons_of_mem _ hmem)

/-- An event of a member group's own post run is in the group post
phase. -/
theorem runGroupsPost_mem_of (res : ActionResult) (g : Nat) (grp : GroupCfg) (e : Event) :
    ∀ pairs : List (Nat × GroupCfg), (g, grp) ∈ pairs →
      e ∈ runPostList (Event.groupPostCall g) grp.post res 0 →
      e ∈ runGroupsPost pairs res := by
  intro pairs
  induction pairs with
  | nil => intro h _; cases h
  | cons a rest ih =>
    intro hmem he
    obtain ⟨a1, agrp⟩ := a
    rcases List.mem_cons.mp hmem with heq | h2
    · obtain ⟨h1, h2'⟩ := Prod.mk.inj heq
      subst h1
      subst h2'
      exact List.mem_append.mpr (Or.inl he)
    · exact List.mem_append.mpr (Or.inr (ih h2 he))

/-- For a test that ignores pre calls, the action, logs and the exit, the
filtered trace is exactly the filtered post phases in order. -/
theorem specTrace_filter_eq (cfg : OrchCfg) (test : Event → Bool)
    (h1 : ∀ k, test (.cliPreCall k) = false)
    (h2 : ∀ g k, test (.groupPreCall g k) = false)
    (h3 : ∀ k, test (.cmdPreCall k) = false)
    (h4 : test .actionCall = false)
    (h5 : ∀ m, test (.logErr m) = false)
    (h6 : ∀ c, test (.exit c) = false) :
    (specTrace cfg).filter test =
      (runPostList Event.cmdPostCall cfg.cmdPost (specResult cfg) 0).filter test ++
      (runGroupsPost cfg.groupsInPath.enum.reverse (specResult cfg)).filter test ++
      (runPostList Event.cliPostCall cfg.cliPost (specResult cfg) 0).filter test := by
  have hpee : ∀ msg, (printErrorAndExit cfg.cliName msg cfg.fullPath).filter test = [] := by
    intro msg
    simp [printErrorAndExit, List.filter_cons, h5, h6]
  have hpre1 : (preCalls Event.cliPreCall cfg.cliPre).filter test = [] := by
    rw [List.filter_eq_nil_iff]
    intro e he
    obtain ⟨k, rfl⟩ := mem_preCalls he
    simp [h1]
  have hgrpPre : (groupsPreTrace cfg.groupsInPath 0).filter test = [] := by
    rw [List.filter_eq_nil_iff]
    intro e he
    obtain ⟨g2, k, rfl⟩ := mem_groupsPreTrace cfg.groupsInPath 0 e he
    simp [h2]
  have hpre3 : (preCalls Event.cmdPreCall cfg.cmdPre).filter test = [] := by
    rw [List.filter_eq_nil_iff]
    intro e he
    obtain ⟨k, rfl⟩ := mem_preCalls he
    simp [h3]
  unfold specTrace
  cases hcli : listAbort cfg.cliPre with
  | some r =>
    simp [specAbort, hcli, List.filter_append, List.filter_cons, hpre1, hpee, h4]
  | none =>
    cases hgrp : groupsAbortSpec cfg.groupsInPath with
    | some r =>
      simp [specAbort, hcli, hgrp, List.filter_append, List.filter_cons, hpre1,
        hgrpPre, hpee, h4]
    | none =>
      cases hcmd : listAbort cfg.cmdPre with
      | some r =>
        simp [specAbort, hcli, hgrp, hcmd, List.filter_append, List.filter_cons,
          hpre1, hgrpPre, hpre3, hpee, h4]
      | none =>
        cases hact : cfg.action with
        | ok =>
          simp [specAbort, hcli, hgrp, hcmd, hact, List.filter_append,
            List.filter_cons, hpre1, hgrpPre, hpre3, h4, h6]
        | throws m =>
          simp [specAbort, hcli, hgrp, hcmd, hact, List.filter_append,
            List.filter_cons, hpre1, hgrpPre, hpre3, h4, hpee]

/-- The only exit event of the trace carries the status the pre phases
and the action determine. -/
theorem specTrace_filter_isExit (cfg : OrchCfg) :
    (specTrace cfg).filter isExit = [Event.exit (specExit cfg)] := by
  have hpee : ∀ msg, (printErrorAndExit cfg.cliName msg cfg.fullPath).filter isExit =
      [Event.exit 1] := by
    intro msg
    simp [printErrorAndExit, List.filter_cons, isExit]
  have hpre1 : (preCalls Event.cliPreCall cfg.cliPre).filter isExit = [] := by
    rw [List.filter_eq_nil_iff]
    intro e he
    obtain ⟨k, rfl⟩ := mem_preCalls he
    simp [isExit]
  have hgrpPre : (groupsPreTrace cfg.groupsInPath 0).filter isExit = [] := by
    rw [List.filter_eq_nil_iff]
    intro e he
    obtain ⟨g2, k, rfl⟩ := mem_groupsPreTrace cfg.groupsInPath 0 e he
    simp [isExit]
  have hpre3 : (preCalls Event.cmdPreCall cfg.cmdPre).filter isExit = [] := by
    rw [List.filter_eq_nil_iff]
    intro e he
    obtain ⟨k, rfl⟩ := mem_preCalls he
    simp [isExit]
  have hcmdPost : (runPostList Event.cmdPostCall cfg.cmdPost (specResult cfg) 0).filter
      isExit = [] :=
    runPostList_filter_nil Event.cmdPostCall isExit (specResult cfg)
      (fun k r => rfl) (fun m => rfl) cfg.cmdPost 0
  have hgrpPost : (runGroupsPost cfg.groupsInPath.enum.reverse (specResult cfg)).filter
      isExit = [] := by
    rw [List.filter_eq_nil_iff]
    intro e he
    rcases mem_runGroupsPost _ _ he with ⟨g2, k, rfl⟩ | ⟨m, rfl⟩ <;> simp [isExit]
  have hcliPost : (runPostList Event.cliPostCall cfg.cliPost (specResult cfg) 0).filter
      isExit = [] :=
    runPostList_filter_nil Event.cliPostCall isExit (specResult cfg)
      (fun k r => rfl) (fun m => rfl) cfg.cliPost 0
  unfold specTrace
  cases hcli : listAbort cfg.cliPre with
  | some r =>
    simp [specExit, specAbort, hcli, List.filter_append, List.filter_cons, hpre1,
      hpee, hcmdPost, hgrpPost, hcliPost, isExit]
  | none =>
    cases hgrp : groupsAbortSpec cfg.groupsInPath with
    | some r =>
      simp [specExit, specAbort, hcli, hgrp, List.filter_append, List.filter_cons,
        hpre1, hgrpPre, hpee, hcmdPost, hgrpPost, hcliPost, isExit]
    | none =>
      cases hcmd : listAbort cfg.cmdPre with
      | some r =>
        simp [specExit, specAbort, hcli, hgrp, hcmd, List.filter_append,
          List.filter_cons, hpre1, hgrpPre, hpre3, hpee, hcmdPost, hgrpPost,
          hcliPost, isExit]
      | none =>
        cases hact : cfg.action with
        | ok =>
          simp [specExit, specAbort, hcli, hgrp, hcmd, hact, List.filter_append,
            List.filter_cons, hpre1, hgrpPre, hpre3, hcmdPost, hgrpPost, hcliPost,
            isExit]
        | throws m =>
          simp [specExit, specAbort, hcli, hgrp, hcmd, hact, List.filter_append,
            List.filter_cons, hpre1, hgrpPre, hpre3, hpee, hcmdPost, hgrpPost,
            hcliPost, isExit]

/-- Every element of the trace is one of the nine event shapes, post
calls carrying the one shared result. -/
theorem mem_specTrace_shape (cfg : OrchCfg) (e : Event) (h : e ∈ specTrace cfg) :
    (∃ k, e = Event.cliPreCall k) ∨ (∃ g k, e = Event.groupPreCall g k) ∨
    (∃ k, e = Event.cmdPreCall k) ∨ e = Event.actionCall ∨
    (∃ k, e = Event.cmdPostCall k (specResult cfg)) ∨
    (∃ g k, e = Event.groupPostCall g k (specResult cfg)) ∨
    (∃ k, e = Event.cliPostCall k (specResult cfg)) ∨
    (∃ m, e = Event.logErr m) ∨ (∃ c, e = Event.exit c) := by
  unfold specTrace at h
  simp only [List.mem_append] at h
  rcases h with (((((((h | h) | h) | h) | h) | h) | h) | h)
  · obtain ⟨k, rfl⟩ := mem_preCalls h
    exact Or.inl ⟨k, rfl⟩
  · cases hcli : listAbort cfg.cliPre with
    | some r =>
      rw [hcli] at h
      simp at h
    | none =>
      rw [hcli] at h
      obtain ⟨g2, k, rfl⟩ := mem_groupsPreTrace cfg.groupsInPath 0 _ h
      exact Or.inr (Or.inl ⟨g2, k, rfl⟩)
  · cases hcli : listAbort cfg.cliPre with
    | some r =>
      rw [hcli] at h
      simp at h
    | none =>
      cases hgrp : groupsAbortSpec cfg.groupsInPath with
      | some r =>
        rw [hcli, hgrp] at h
        simp at h
      | none =>
        rw [hcli, hgrp] at h
        obtain ⟨k, rfl⟩ := mem_preCalls h
        exact Or.inr (Or.inr (Or.inl ⟨k, rfl⟩))
  · cases hab : specAbort cfg with
    | some r =>
      rw [hab] at h
      simp at h
    | none =>
      rw [hab] at h
      simp at h
      subst h
      exact Or.inr (Or.inr (Or.inr (Or.inl rfl)))
  · rcases mem_runPostList cfg.cmdPost 0 e h with ⟨k, rfl⟩ | ⟨m, rfl⟩
    · exact Or.inr (Or.inr (Or.inr (Or.inr (Or.inl ⟨k, rfl⟩))))
    · exact Or.inr (Or.inr (Or.inr (Or.inr (Or.inr (Or.inr (Or.inr (Or.inl
        ⟨m, rfl⟩)))))))
  · rcases mem_runGroupsPost _ _ h with ⟨g2, k, rfl⟩ | ⟨m, rfl⟩
    · exact Or.inr (Or.inr (Or.inr (Or.inr (Or.inr (Or.inl ⟨g2, k, rfl⟩)))))
    · exact Or.inr (Or.inr (Or.inr (Or.inr (Or.inr (Or.inr (Or.inr (Or.inl
        ⟨m, rfl⟩)))))))
  · rcases mem_runPostList cfg.cliPost 0 e h with ⟨k, rfl⟩ | ⟨m, rfl⟩
    · exact Or.inr (Or.inr (Or.inr (Or.inr (Or.inr (Or.inr (Or.inl ⟨k, rfl⟩))))))
    · exact Or.inr (Or.inr (Or.inr (Or.inr (Or.inr (Or.inr (Or.inr (Or.inl
        ⟨m, rfl⟩)))))))
  · cases hab : specAbort cfg with
    | some r =>
      rw [hab] at h
      simp only [printErrorAndExit, List.mem_cons, List.mem_singleton,
        List.not_mem_nil, or_false] at h
      rcases h with rfl | rfl | rfl | rfl
      · exact Or.inr (Or.inr (Or.inr (Or.inr (Or.inr (Or.inr (Or.inr (Or.inl
          ⟨_, rfl⟩)))))))
      · exact Or.inr (Or.inr (Or.inr (Or.inr (Or.inr (Or.inr (Or.inr (Or.inl
          ⟨_, rfl⟩)))))))
      · exact Or.inr (Or.inr (Or.inr (Or.inr (Or.inr (Or.inr (Or.inr (Or.inl
          ⟨_, rfl⟩)))))))
      · exact Or.inr (Or.inr (Or.inr (Or.inr (Or.inr (Or.inr (Or.inr (Or.inr
          ⟨1, rfl⟩)))))))
    | none =>
      rw [hab] at h
      cases hact : cfg.action with
      | ok =>
        rw [hact] at h
        simp at h
        subst h
        exact Or.inr (Or.inr (Or.inr (Or.inr (Or.inr (Or.inr (Or.inr (Or.inr
          ⟨0, rfl⟩)))))))
      | throws m =>
        rw [hact] at h
        simp only [printErrorAndExit, List.mem_cons, List.mem_singleton,
          List.not_mem_nil, or_false] at h
        rcases h with rfl | rfl | rfl | rfl
        · exact Or.inr (Or.inr (Or.inr (Or.inr (Or.inr (Or.inr (Or.inr (Or.inl
            ⟨_, rfl⟩)))))))
        · exact Or.inr (Or.inr (Or.inr (Or.inr (Or.inr (Or.inr (Or.inr (Or.inl
            ⟨_, rfl⟩)))))))
        · exact Or.inr (Or.inr (Or.inr (Or.inr (Or.inr (Or.inr (Or.inr (Or.inl
            ⟨_, rfl⟩)))))))
        · exact Or.inr (Or.inr (Or.inr (Or.inr (Or.inr (Or.inr (Or.inr (Or.inr
            ⟨1, rfl⟩)))))))

/-- A pre list of continuing hooks followed by an abort calls everything
up to and including the abort, and aborts with its reason. -/
theorem calledCount_append_abort (r : Option String) (rest : List PreOutcome) :
    ∀ l1 : List PreOutcome, (∀ h ∈ l1, h = PreOutcome.cont) →
      calledCount (l1 ++ PreOutcome.abort r :: rest) = l1.length + 1 ∧
      listAbort (l1 ++ PreOutcome.abort r :: rest) = some r := by
  intro l1
  induction l1 with
  | nil => intro _; exact ⟨rfl, rfl⟩
  | cons h t ih =>
    intro hcont
    have hh : h = PreOutcome.cont := hcont h (List.mem_cons_self h t)
    subst hh
    have ht := ih (fun x hx => hcont x (List.mem_cons_of_mem _ hx))
    constructor
    · show calledCount (t ++ PreOutcome.abort r :: rest) + 1 = t.length + 1 + 1
      rw [ht.1]
    · show listAbort (t ++ PreOutcome.abort r :: rest) = some r
      exact ht.2

/-- C1: every declared post-action hook — command level, every group on
the matched path, CLI level — runs exactly once whatever the pre phases
and the action did, and every post call carries the one shared
`ActionResult`: `{success := false, error := reason, aborted := true}`
after a pre-phase abort, `{success := false, error := message}` after an
action exception, `{success := true}` after normal completion. -/
theorem post_hooks_run_exactly_once (cfg : OrchCfg) :
    (∀ i, i < cfg.cmdPost.length →
      ((executeWithHooks cfg).filter (isCmdPost i)).length = 1) ∧
    (∀ g grp, cfg.groupsInPath.get? g = some grp →
      ∀ i, i < grp.post.length →
        ((executeWithHooks cfg).filter (isGroupPost g i)).length = 1) ∧
    (∀ i, i < cfg.cliPost.length →
      ((executeWithHooks cfg).filter (isCliPost i)).length = 1) ∧
    (∀ i r, Event.cmdPostCall i r ∈ executeWithHooks cfg → r = specResult cfg) ∧
    (∀ g i r, Event.groupPostCall g i r ∈ executeWithHooks cfg → r = specResult cfg) ∧
    (∀ i r, Event.cliPostCall i r ∈ executeWithHooks cfg → r = specResult cfg) ∧
    (∀ r, specAbort cfg = some r → specResult cfg = ⟨false, some r, true⟩) ∧
    (∀ m, specAbort cfg = none → cfg.action = .throws m →
      specResult cfg = ⟨false, some m, false⟩) ∧
    (specAbort cfg = none → cfg.action = .ok → specResult cfg = ⟨true, none, false⟩) := by
  refine ⟨?_, ?_, ?_, ?_, ?_, ?_, ?_, ?_, ?_⟩
  · intro i hi
    rw [executeWithHooks_eq_specTrace,
      specTrace_filter_eq cfg (isCmdPost i) (fun k => rfl) (fun g2 k => rfl)
        (fun k => rfl) rfl (fun m => rfl) (fun c => rfl)]
    rw [List.length_append, List.length_append]
    rw [runPostList_count Event.cmdPostCall (isCmdPost i) i (specResult cfg)
      (fun k r => rfl) (fun m => rfl) cfg.cmdPost 0]
    rw [if_pos (show 0 ≤ i ∧ i < 0 + cfg.cmdPost.length by omega)]
    rw [show (runGroupsPost cfg.groupsInPath.enum.reverse (specResult cfg)).filter
        (isCmdPost i) = [] from by
      rw [List.filter_eq_nil_iff]
      intro e he
      rcases mem_runGroupsPost _ _ he with ⟨g2, k, rfl⟩ | ⟨m, rfl⟩ <;> simp [isCmdPost]]
    rw [runPostList_filter_nil Event.cliPostCall (isCmdPost i) (specResult cfg)
      (fun k r => rfl) (fun m => rfl) cfg.cliPost 0]
    rfl
  · intro g grp hget i hi
    rw [executeWithHooks_eq_specTrace,
      specTrace_filter_eq cfg (isGroupPost g i) (fun k => rfl) (fun g2 k => rfl)
        (fun k => rfl) rfl (fun m => rfl) (fun c => rfl)]
    rw [List.length_append, List.length_append]
    rw [runPostList_filter_nil Event.cmdPostCall (isGroupPost g i) (specResult cfg)
      (fun k r => rfl) (fun m => rfl) cfg.cmdPost 0]
    rw [runPostList_filter_nil Event.cliPostCall (isGroupPost g i) (specResult cfg)
      (fun k r => rfl) (fun m => rfl) cfg.cliPost 0]
    rw [runGroupsPost_count g i (specResult cfg) cfg.groupsInPath.enum.reverse
      (enum_reverse_fst_nodup cfg.groupsInPath)]
    rw [lookup_eq_some_of_mem g grp cfg.groupsInPath.enum.reverse
      (enum_reverse_fst_nodup cfg.groupsInPath)
      (List.mem_reverse.mpr (mem_enum_of_get cfg.groupsInPath g grp hget))]
    show ([] : List Event).length + (if i < grp.post.length then 1 else 0) +
      ([] : List Event).length = 1
    rw [if_pos hi]
    rfl
  · intro i hi
    rw [executeWithHooks_eq_specTrace,
      specTrace_filter_eq cfg (isCliPost i) (fun k => rfl) (fun g2 k => rfl)
        (fun k => rfl) rfl (fun m => rfl) (fun c => rfl)]
    rw [List.length_append, List.length_append]
    rw [runPostList_filter_nil Event.cmdPostCall (isCliPost i) (specResult cfg)
      (fun k r => rfl) (fun m => rfl) cfg.cmdPost 0]
    rw [show (runGroupsPost cfg.groupsInPath.enum.reverse (specResult cfg)).filter
        (isCliPost i) = [] from by
      rw [List.filter_eq_nil_iff]
      intro e he
      rcases mem_runGroupsPost _ _ he with ⟨g2, k, rfl⟩ | ⟨m, rfl⟩ <;> simp [isCliPost]]
    rw [runPostList_count Event.cliPostCall (isCliPost i) i (specResult cfg)
      (fun k r => rfl) (fun m => rfl) cfg.cliPost 0]
    rw [if_pos (show 0 ≤ i ∧ i < 0 + cfg.cliPost.length by omega)]
    rfl
  · intro i r hmem
    rw [executeWithHooks_eq_specTrace] at hmem
    rcases mem_specTrace_shape cfg _ hmem with ⟨k, h⟩ | ⟨g2, k, h⟩ | ⟨k, h⟩ | h |
      ⟨k, h⟩ | ⟨g2, k, h⟩ | ⟨k, h⟩ | ⟨m, h⟩ | ⟨c, h⟩ <;> injection h
  · intro g i r hmem
    rw [executeWithHooks_eq_specTrace] at hmem
    rcases mem_specTrace_shape cfg _ hmem with ⟨k, h⟩ | ⟨g2, k, h⟩ | ⟨k, h⟩ | h |
      ⟨k, h⟩ | ⟨g2, k, h⟩ | ⟨k, h⟩ | ⟨m, h⟩ | ⟨c, h⟩ <;> injection h
  · intro i r hmem
    rw [executeWithHooks_eq_specTrace] at hmem
    rcases mem_specTrace_shape cfg _ hmem with ⟨k, h⟩ | ⟨g2, k, h⟩ | ⟨k, h⟩ | h |
      ⟨k, h⟩ | ⟨g2, k, h⟩ | ⟨k, h⟩ | ⟨m, h⟩ | ⟨c, h⟩ <;> injection h
  · intro r hab
    unfold specResult
    rw [hab]
  · intro m hab hact
    unfold specResult
    rw [hab, hact]
  · intro hab hact
    unfold specResult
    rw [hab, hact]

/-- C1 witness: in `exCfg` the command pre phase aborts with reason
`stop`; still the second command post hook, the group post hook and the
CLI post hook each run exactly once, with the abort result; the other
two configurations exhibit the exception and success result shapes. -/
theorem post_hooks_run_exactly_once_witness :
    ((executeWithHooks exCfg).filter (isCmdPost 1)).length = 1 ∧
    ((executeWithHooks exCfg).filter (isGroupPost 0 0)).length = 1 ∧
    ((executeWithHooks exCfg).filter (isCliPost 0)).length = 1 ∧
    specResult exCfg = ⟨false, some "stop", true⟩ ∧
    specResult exCfgThrow = ⟨false, some "bad", false⟩ ∧
    specResult exCfgOk = ⟨true, none, false⟩ :=
  ⟨(post_hooks_run_exactly_once exCfg).1 1 (by decide),
    (post_hooks_run_exactly_once exCfg).2.1 0 ⟨"db", [.cont], [.ok]⟩ rfl 0 (by decide),
    (post_hooks_run_exactly_once exCfg).2.2.1 0 (by decide),
    (post_hooks_run_exactly_once exCfg).2.2.2.2.2.2.1 "stop" rfl,
    (post_hooks_run_exactly_once exCfgThrow).2.2.2.2.2.2.2.1 "bad" rfl rfl,
    (post_hooks_run_exactly_once exCfgOk).2.2.2.2.2.2.2.2 rfl rfl⟩

/-- C2: a throwing post hook is caught and logged as
`[postAction hook error] message`; the trace still reaches every later
post hook call (each with the unchanged shared result) and ends in the
one exit event, whose status — like the shared result — is a function of
the pre and action outcomes alone, unchanged under any replacement of
the post hook lists. -/
theorem post_hook_failure_isolation (cfg : OrchCfg) (cp clp : List PostOutcome)
    (f : GroupCfg → List PostOutcome) :
    (executeWithHooks cfg).filter isExit = [Event.exit (specExit cfg)] ∧
    specExit { cfg with
      cmdPost := cp
      cliPost := clp
      groupsInPath := cfg.groupsInPath.map (fun g => { g with post := f g }) } =
      specExit cfg ∧
    specResult { cfg with
      cmdPost := cp
      cliPost := clp
      groupsInPath := cfg.groupsInPath.map (fun g => { g with post := f g }) } =
      specResult cfg ∧
    (∀ i m, cfg.cmdPost.get? i = some (.throws m) →
      Event.logErr ("[postAction hook error] " ++ m) ∈ executeWithHooks cfg) ∧
    (∀ g grp, cfg.groupsInPath.get? g = some grp →
      ∀ i m, grp.post.get? i = some (.throws m) →
        Event.logErr ("[postAction hook error] " ++ m) ∈ executeWithHooks cfg) ∧
    (∀ i m, cfg.cliPost.get? i = some (.throws m) →
      Event.logErr ("[postAction hook error] " ++ m) ∈ executeWithHooks cfg) ∧
    (∀ i, i < cfg.cmdPost.length →
      Event.cmdPostCall i (specResult cfg) ∈ executeWithHooks cfg) ∧
    (∀ g grp, cfg.groupsInPath.get? g = some grp →
      ∀ i, i < grp.post.length →
        Event.groupPostCall g i (specResult cfg) ∈ executeWithHooks cfg) ∧
    (∀ i, i < cfg.cliPost.length →
      Event.cliPostCall i (specResult cfg) ∈ executeWithHooks cfg) := by
  refine ⟨?_, specExit_replace_posts cfg cp clp f, specResult_replace_posts cfg cp clp f,
    ?_, ?_, ?_, ?_, ?_, ?_⟩
  · rw [executeWithHooks_eq_specTrace, specTrace_filter_isExit]
  · intro i m hget
    rw [executeWithHooks_eq_specTrace]
    unfold specTrace
    simp only [List.mem_append]
    exact Or.inl (Or.inl (Or.inl (Or.inr
      (runPostList_log_mem Event.cmdPostCall (specResult cfg) cfg.cmdPost 0 i m hget))))
  · intro g grp hget i m hthrow
    rw [executeWithHooks_eq_specTrace]
    unfold specTrace
    simp only [List.mem_append]
    exact Or.inl (Or.inl (Or.inr
      (runGroupsPost_mem_of (specResult cfg) g grp _ cfg.groupsInPath.enum.reverse
        (List.mem_reverse.mpr (mem_enum_of_get cfg.groupsInPath g grp hget))
        (runPostList_log_mem (Event.groupPostCall g) (specResult cfg) grp.post 0 i m
          hthrow))))
  · intro i m hget
    rw [executeWithHooks_eq_specTrace]
    unfold specTrace
    simp only [List.mem_append]
    exact Or.inl (Or.inr
      (runPostList_log_mem Event.cliPostCall (specResult cfg) cfg.cliPost 0 i m hget))
  · intro i hi
    rw [executeWithHooks_eq_specTrace]
    unfold specTrace
    simp only [List.mem_append]
    have hmem := runPostList_call_mem Event.cmdPostCall (specResult cfg) cfg.cmdPost 0 i hi
    rw [Nat.zero_add] at hmem
    exact Or.inl (Or.inl (Or.inl (Or.inr hmem)))
  · intro g grp hget i hi
    rw [executeWithHooks_eq_specTrace]
    unfold specTrace
    simp only [List.mem_append]
    have hmem := runPostList_call_mem (Event.groupPostCall g) (specResult cfg)
      grp.post 0 i hi
    rw [Nat.zero_add] at hmem
    exact Or.inl (Or.inl (Or.inr
      (runGroupsPost_mem_of (specResult cfg) g grp _ cfg.groupsInPath.enum.reverse
        (List.mem_reverse.mpr (mem_enum_of_get cfg.groupsInPath g grp hget)) hmem)))
  · intro i hi
    rw [executeWithHooks_eq_specTrace]
    unfold specTrace
    simp only [List.mem_append]
    have hmem := runPostList_call_mem Event.cliPostCall (specResult cfg) cfg.cliPost 0 i hi
    rw [Nat.zero_add] at hmem
    exact Or.inl (Or.inr hmem)

/-- C2 witness: in `exCfg` the throwing command and CLI post hooks are
caught and logged, the later post calls still happen with the unchanged
abort result, and the single exit event carries status 1; erasing every
post list moves neither the exit status nor the result. -/
theorem post_hook_failure_isolation_witness :
    (executeWithHooks exCfg).filter isExit = [Event.exit 1] ∧
    Event.logErr ("[postAction hook error] " ++ "cmd-post-boom") ∈
      executeWithHooks exCfg ∧
    Event.logErr ("[postAction hook error] " ++ "cli-post-boom") ∈
      executeWithHooks exCfg ∧
    Event.cmdPostCall 1 (specResult exCfg) ∈ executeWithHooks exCfg ∧
    Event.groupPostCall 0 0 (specResult exCfg) ∈ executeWithHooks exCfg ∧
    Event.cliPostCall 0 (specResult exCfg) ∈ executeWithHooks exCfg ∧
    specExit { exCfg with
      cmdPost := []
      cliPost := []
      groupsInPath := exCfg.groupsInPath.map (fun g => { g with post := [] }) } =
      specExit exCfg :=
  ⟨(post_hook_failure_isolation exCfg [] [] (fun _ => [])).1,
    (post_hook_failure_isolation exCfg [] [] (fun _ => [])).2.2.2.1 1 "cmd-post-boom" rfl,
    (post_hook_failure_isolation exCfg [] [] (fun _ => [])).2.2.2.2.2.1 0
      "cli-post-boom" rfl,
    (post_hook_failure_isolation exCfg [] [] (fun _ => [])).2.2.2.2.2.2.1 1 (by decide),
    (post_hook_failure_isolation exCfg [] [] (fun _ => [])).2.2.2.2.2.2.2.1 0
      ⟨"db", [.cont], [.ok]⟩ rfl 0 (by decide),
    (post_hook_failure_isolation exCfg [] [] (fun _ => [])).2.2.2.2.2.2.2.2 0 (by decide),
    (post_hook_failure_isolation exCfg [] [] (fun _ => [])).2.1⟩

/-- C3: the trace is exactly `CLI pre → group pre root→leaf → command
pre → action → command post → group post leaf→root → CLI post → exit`,
with every pre phase cut at its first non-continuing hook: a list of
continuing hooks followed by an abort calls exactly the hooks up to and
including the abort and its reason propagates, and the action runs if
and only if no pre phase aborted. -/
theorem hooks_execute_in_phase_order (cfg : OrchCfg) (l1 rest : List PreOutcome)
    (r : Option String) (hcont : ∀ h ∈ l1, h = PreOutcome.cont) :
    executeWithHooks cfg = specTrace cfg ∧
    calledCount (l1 ++ PreOutcome.abort r :: rest) = l1.length + 1 ∧
    listAbort (l1 ++ PreOutcome.abort r :: rest) = some r ∧
    (Event.actionCall ∈ executeWithHooks cfg ↔ specAbort cfg = none) := by
  refine ⟨executeWithHooks_eq_specTrace cfg, (calledCount_append_abort r rest l1 hcont).1,
    (calledCount_append_abort r rest l1 hcont).2, ?_⟩
  rw [executeWithHooks_eq_specTrace]
  constructor
  · intro hmem
    unfold specTrace at hmem
    simp only [List.mem_append] at hmem
    rcases hmem with (((((((h | h) | h) | h) | h) | h) | h) | h)
    · obtain ⟨k, hk⟩ := mem_preCalls h
      exact Event.noConfusion hk
    · cases hcli : listAbort cfg.cliPre with
      | some r2 =>
        rw [hcli] at h
        simp at h
      | none =>
        rw [hcli] at h
        obtain ⟨g2, k, hk⟩ := mem_groupsPreTrace cfg.groupsInPath 0 _ h
        exact Event.noConfusion hk
    · cases hcli : listAbort cfg.cliPre with
      | some r2 =>
        rw [hcli] at h
        simp at h
      | none =>
        cases hgrp : groupsAbortSpec cfg.groupsInPath with
        | some r2 =>
          rw [hcli, hgrp] at h
          simp at h
        | none =>
          rw [hcli, hgrp] at h
          obtain ⟨k, hk⟩ := mem_preCalls h
          exact Event.noConfusion hk
    · cases hab : specAbort cfg with
      | some r2 =>
        rw [hab] at h
        simp at h
      | none => rfl
    · rcases mem_runPostList cfg.cmdPost 0 _ h with ⟨k, hk⟩ | ⟨m, hk⟩ <;>
        exact Event.noConfusion hk
    · rcases mem_runGroupsPost _ _ h with ⟨g2, k, hk⟩ | ⟨m, hk⟩ <;>
        exact Event.noConfusion hk
    · rcases mem_runPostList cfg.cliPost 0 _ h with ⟨k, hk⟩ | ⟨m, hk⟩ <;>
        exact Event.noConfusion hk
    · cases hab : specAbort cfg with
      | some r2 =>
        rw [hab] at h
        simp [printErrorAndExit] at h
      | none => rfl
  · intro hab
    unfold specTrace
    simp only [List.mem_append]
    refine Or.inl (Or.inl (Or.inl (Or.inl (Or.inr ?_))))
    rw [hab]
    simp

/-- C3 witness: in `exCfg` the command pre list `[cont, abort]` calls
both hooks, aborts with reason `stop`, and the action never runs. -/
theorem hooks_execute_in_phase_order_witness :
    executeWithHooks exCfg = specTrace exCfg ∧
    calledCount ([PreOutcome.cont] ++ PreOutcome.abort (some "stop") ::
      [PreOutcome.cont]) = 2 ∧
    listAbort ([PreOutcome.cont] ++ PreOutcome.abort (some "stop") ::
      [PreOutcome.cont]) = some (some "stop") ∧
    ¬ Event.actionCall ∈ executeWithHooks exCfg := by
  have h := hooks_execute_in_phase_order exCfg [PreOutcome.cont] [PreOutcome.cont]
    (some "stop") (by decide)
  refine ⟨h.1, h.2.1, h.2.2.1, ?_⟩
  intro hmem
  have habs : specAbort exCfg = none := h.2.2.2.mp hmem
  exact absurd habs (by decide)

end FarrowCli
